import Mathlib

/-!
Verification of the Hilbert-ND transforms (src/main.cpp).

The C source (John Skilling's public-domain code, extended with bit
interleaving helpers) works on an array `X` of `n` unsigned integers of
`b` significant bits each.  We embed it shallowly: the array becomes a
`List Nat`, `coord_t` values become unbounded naturals (the C `typedef`
selects a word of at least `b` bits per coordinate, and the scalar code
type a word of at least `n*b` bits; all bit operations below stay exact
on such words, so `Nat` models the intended arbitrary-width semantics).
Each C loop is embedded as a `List.foldl` over the exact sequence of
loop-counter values, and each loop body as a pure state transformer.
-/

namespace HilbertND

/-! ### List helpers -/

/-- Reading back a freshly written slot. -/
theorem getD_set_self {X : List Nat} {i : Nat} (h : i < X.length) (v d : Nat) :
    (X.set i v).getD i d = v := by
  simp [List.getD_eq_getElem?_getD, List.getElem?_set_self h]

/-- Writing one slot does not change the others. -/
theorem getD_set_ne {X : List Nat} {i j : Nat} (h : i ≠ j) (v d : Nat) :
    (X.set i v).getD j d = X.getD j d := by
  simp [List.getD_eq_getElem?_getD, List.getElem?_set_ne h]

/-- Writing a slot's current value back is a no-op. -/
theorem set_getD_self {X : List Nat} {i : Nat} (h : i < X.length) (d : Nat) :
    X.set i (X.getD i d) = X := by
  apply List.ext_getElem (by simp)
  intro j h1 h2
  rw [List.getElem_set]
  split
  · next heq =>
    subst heq
    simp [List.getD_eq_getElem?_getD, List.getElem?_eq_getElem h]
  · rfl

/-- `getD` as `getElem` below the length. -/
theorem getD_eq_getElem {X : List Nat} {i : Nat} (h : i < X.length) (d : Nat) :
    X.getD i d = X[i] := by
  simp [List.getD_eq_getElem?_getD, List.getElem?_eq_getElem h]

/-- `getD` through `map` below the length. -/
theorem getD_map (f : Nat → Nat) {X : List Nat} {i : Nat} (h : i < X.length) (d : Nat) :
    (X.map f).getD i d = f (X.getD i d) := by
  rw [getD_eq_getElem (by simpa using h), getD_eq_getElem h, List.getElem_map]

/-- Entries read with `getD 0` stay below a bound that holds for all members
(the default `0` is below any power of two). -/
theorem getD_lt_two_pow {X : List Nat} {b : Nat} (hX : ∀ x ∈ X, x < 2 ^ b) (i : Nat) :
    X.getD i 0 < 2 ^ b := by
  by_cases h : i < X.length
  · rw [getD_eq_getElem h]
    exact hX _ (List.getElem_mem h)
  · rw [List.getD_eq_getElem?_getD, List.getElem?_eq_none (by omega)]
    exact Nat.pos_pow_of_pos _ (by norm_num)

/-! ### The embedded program -/

/-- Body of the invert/exchange inner loops shared by `TransposetoAxes`
(src/main.cpp lines 36-48) and `AxestoTranspose` (lines 59-71): with
`P = Q - 1`, if `X[i] & Q` then `X[0] ^= P`, else
`t = (X[0] ^ X[i]) & P; X[0] ^= t; X[i] ^= t` (reads sequential as in C). -/
def exchInvStep (Q i : Nat) (X : List Nat) : List Nat :=
  let P := Q - 1
  if X.getD i 0 &&& Q ≠ 0 then
    X.set 0 (X.getD 0 0 ^^^ P)
  else
    let t := (X.getD 0 0 ^^^ X.getD i 0) &&& P
    let X1 := X.set 0 (X.getD 0 0 ^^^ t)
    X1.set i (X1.getD i 0 ^^^ t)

/-- Bit-plane values `Q = 2, 4, ..., 2^(b-1)` taken in order by the loop
`for (Q = 2; Q != N; Q <<= 1)` of `TransposetoAxes` (`N = 2 << (b-1) = 2^b`). -/
def qListAsc (b : Nat) : List Nat :=
  (List.range' 1 (b - 1)).map (fun q => 2 ^ q)

/-- Bit-plane values `Q = 2^(b-1), ..., 4, 2` taken in order by the loops
`for (Q = M; Q > 1; Q >>= 1)` of `AxestoTranspose` (`M = 1 << (b-1)`). -/
def qListDesc (b : Nat) : List Nat :=
  (qListAsc b).reverse

/-- The (bit-plane, dimension) pairs visited by the double loop of
`AxestoTranspose` lines 56-72: `Q` descending, `i = 0 .. n-1` ascending. -/
def axesPairs (b n : Nat) : List (Nat × Nat) :=
  (qListDesc b).flatMap (fun Q => (List.range n).map (fun i => (Q, i)))

/-- The (bit-plane, dimension) pairs visited by the double loop of
`TransposetoAxes` lines 33-49: `Q` ascending, `i = n-1 .. 0` descending. -/
def transposePairs (b n : Nat) : List (Nat × Nat) :=
  (qListAsc b).flatMap (fun Q => ((List.range n).reverse).map (fun i => (Q, i)))

/-- The Gray chain body `X[i] ^= X[i-1]` (src/main.cpp lines 29 and 76). -/
def xorStep (i : Nat) (X : List Nat) : List Nat :=
  X.set i (X.getD i 0 ^^^ X.getD (i - 1) 0)

/-- The correction accumulator of `AxestoTranspose` lines 78-85:
`t = 0; for (Q = M; Q > 1; Q >>= 1) if (x & Q) t ^= Q - 1`. -/
def tCorrection (b x : Nat) : Nat :=
  (qListDesc b).foldl (fun t Q => if x &&& Q ≠ 0 then t ^^^ (Q - 1) else t) 0

/-- The Gray-encode phase of `AxestoTranspose` (src/main.cpp lines 73-89):
the ascending chain `X[i] ^= X[i-1]` for `i = 1 .. n-1`, then the
correction `t` computed from `X[n-1]`, then `X[i] ^= t` for every `i`. -/
def grayEncode (b n : Nat) (X : List Nat) : List Nat :=
  let X1 := (List.range' 1 (n - 1)).foldl (fun Y i => xorStep i Y) X
  let t := tCorrection b (X1.getD (n - 1) 0)
  X1.map (fun x => x ^^^ t)

/-- The Gray-decode phase of `TransposetoAxes` (src/main.cpp lines 22-31):
`t = X[n-1] >> 1`, the descending chain `X[i] ^= X[i-1]` for
`i = n-1 .. 1`, then `X[0] ^= t`. -/
def grayDecode (n : Nat) (X : List Nat) : List Nat :=
  let t := X.getD (n - 1) 0 >>> 1
  let X1 := ((List.range' 1 (n - 1)).reverse).foldl (fun Y i => xorStep i Y) X
  X1.set 0 (X1.getD 0 0 ^^^ t)

/-- `AxestoTranspose` (src/main.cpp lines 52-90): the inverse-undo double
loop followed by the Gray-encode phase. -/
def AxestoTranspose (X : List Nat) (b n : Nat) : List Nat :=
  grayEncode b n ((axesPairs b n).foldl (fun Y p => exchInvStep p.1 p.2 Y) X)

/-- `TransposetoAxes` (src/main.cpp lines 20-50): the Gray-decode phase
followed by the undo-excess-work double loop. -/
def TransposetoAxes (X : List Nat) (b n : Nat) : List Nat :=
  (transposePairs b n).foldl (fun Y p => exchInvStep p.1 p.2 Y) (grayDecode n X)

/-- Body of the inner interleave loop, on the state (X, coden):
`coden[j] |= (X[j] & andbit) << i` with `andbit = 1 <<< k`, `i = 2*k`. -/
def interInner (k : Nat) (s : List Nat × List Nat) (j : Nat) : List Nat × List Nat :=
  (s.1, s.2.set j (s.2.getD j 0 ||| ((s.1.getD j 0 &&& (1 <<< k)) <<< (2 * k))))

/-- One pass of the outer interleave loop: the inner loop over `j = 0..n-1`. -/
def interOuter (n : Nat) (s : List Nat × List Nat) (k : Nat) : List Nat × List Nat :=
  (List.range n).foldl (interInner k) s

/-- `interleaveBits` (src/main.cpp lines 92-114) with the coordinate array
threaded through as state (the source only reads `X`).  The loop
`for (i = 0, andbit = 1; i < 2*b; i += 2, andbit <<= 1)` runs for
`i = 2k`, `andbit = 2^k = 1 <<< k`, `k = 0 .. b-1`; its body is
`coden[j] |= (X[j] & andbit) << i` for `j = 0 .. n-1`.  Afterwards
`res = coden[0] << (n-1); res |= coden[j] << (n-j-1)` for `j = 1 .. n-1`.
Returns the final coordinate array together with `res`. -/
def interleaveBitsS (X : List Nat) (b n : Nat) : List Nat × Nat :=
  let s1 := (List.range b).foldl (interOuter n) (X, List.replicate n 0)
  let coden := s1.2
  let res := (List.range' 1 (n - 1)).foldl
    (fun res j => res ||| (coden.getD j 0 <<< (n - j - 1)))
    (coden.getD 0 0 <<< (n - 1))
  (s1.1, res)

/-- The scalar code returned by `interleaveBits`. -/
def interleaveBits (X : List Nat) (b n : Nat) : Nat :=
  (interleaveBitsS X b n).2

/-- Body of the inner uninterleave loop for outer bit-plane index `i`
(src/main.cpp line 130): `X[n-j-1] |= (code & (selector << (shift_selector + j))) >> (shiftback + j)`
with `selector = 1`, `shift_selector = 3*i`, `shiftback = 2*i`. -/
def uninterInner (n code i : Nat) (Y : List Nat) (j : Nat) : List Nat :=
  Y.set (n - j - 1)
    (Y.getD (n - j - 1) 0 ||| ((code &&& (1 <<< (3 * i + j))) >>> (2 * i + j)))

/-- `uninterleaveBits` (src/main.cpp lines 117-133): zero `X[0..n-1]`,
then for `i = 0 .. b` (inclusive) and `j = 0 .. n-1` run `uninterInner`. -/
def uninterleaveBits (X : List Nat) (b n code : Nat) : List Nat :=
  let Xz := (List.range n).foldl (fun Y i => Y.set i 0) X
  (List.range (b + 1)).foldl
    (fun Y i => (List.range n).foldl (uninterInner n code i) Y)
    Xz

/-! ### Nat bit lemmas -/

/-- `a ^^^ b ^^^ b = a`. -/
theorem xor_cancel_r (a b : Nat) : a ^^^ b ^^^ b = a := by
  rw [Nat.xor_assoc, Nat.xor_self, Nat.xor_zero]

/-- XOR-ing both operands by the same value cancels. -/
theorem xor_xor_cancel (a b c : Nat) : (a ^^^ c) ^^^ (b ^^^ c) = a ^^^ b := by
  rw [Nat.xor_assoc]
  suffices h : c ^^^ (b ^^^ c) = b by rw [h]
  rw [Nat.xor_comm b c, ← Nat.xor_assoc, Nat.xor_self, Nat.zero_xor]

/-- A power of two and its predecessor mask share no bits. -/
theorem two_pow_sub_one_and_two_pow (q : Nat) : (2 ^ q - 1) &&& 2 ^ q = 0 := by
  apply Nat.eq_of_testBit_eq
  intro k
  rw [Nat.testBit_and, Nat.testBit_two_pow_sub_one, Nat.testBit_two_pow, Nat.zero_testBit]
  by_cases h : q = k <;> simp [h]

/-- Distinct powers of two share no bits. -/
theorem two_pow_and_two_pow_ne {c q : Nat} (h : c ≠ q) : 2 ^ c &&& 2 ^ q = 0 := by
  apply Nat.eq_of_testBit_eq
  intro k
  rw [Nat.testBit_and, Nat.zero_testBit]
  rcases eq_or_ne c k with rfl | hck
  · rw [Nat.testBit_two_pow_of_ne (fun hqc => h hqc.symm)]
    simp
  · rw [Nat.testBit_two_pow_of_ne hck]
    simp

/-- `x &&& 2^q` isolates bit `q`. -/
theorem and_two_pow_eq (x q : Nat) :
    x &&& 2 ^ q = if x.testBit q then 2 ^ q else 0 := by
  apply Nat.eq_of_testBit_eq
  intro k
  rw [Nat.testBit_and, Nat.testBit_two_pow]
  by_cases hqk : q = k
  · subst hqk
    by_cases h : x.testBit q <;> simp [h]
  · by_cases h : x.testBit q <;>
      simp [h, hqk, Nat.testBit_two_pow_of_ne hqk, Nat.zero_testBit]

/-- The loop conditions `x & Q` with `Q = 2^q` test bit `q`. -/
theorem and_two_pow_ne_zero_iff (x q : Nat) :
    (x &&& 2 ^ q ≠ 0) ↔ x.testBit q = true := by
  rw [and_two_pow_eq]
  by_cases h : x.testBit q <;> simp [h]

/-- XOR-ing in a high bit does not affect `&&& 2^q` for low `q`. -/
theorem xor_two_pow_and_two_pow {c q : Nat} (h : c ≠ q) (x : Nat) :
    (2 ^ c ^^^ x) &&& 2 ^ q = x &&& 2 ^ q := by
  rw [Nat.and_xor_distrib_right, two_pow_and_two_pow_ne h, Nat.zero_xor]

/-! ### Generic fold lemmas -/

/-- Folding a list of involutive, predicate-preserving steps and then folding
the reversed list returns to the start. -/
theorem foldl_reverse_cancel {σ : Type} (step : σ → List Nat → List Nat)
    (good : σ → Prop) (stable : List Nat → Prop)
    (hpres : ∀ s X, good s → stable X → stable (step s X))
    (hinv : ∀ s X, good s → stable X → step s (step s X) = X) :
    ∀ (l : List σ) (X : List Nat), (∀ s ∈ l, good s) → stable X →
      l.reverse.foldl (fun Y s => step s Y) (l.foldl (fun Y s => step s Y) X) = X := by
  intro l
  induction l with
  | nil => intro X _ _; rfl
  | cons a l ih =>
    intro X hl hX
    have ha : good a := hl a (by simp)
    have hl' : ∀ s ∈ l, good s := fun s hs => hl s (by simp [hs])
    simp only [List.foldl_cons, List.reverse_cons, List.foldl_append]
    rw [ih (step a X) hl' (hpres a X ha hX)]
    exact hinv a X ha hX

/-- A fold whose steps preserve a list predicate preserves it. -/
theorem foldl_preserve {σ : Type} (step : σ → List Nat → List Nat)
    (good : σ → Prop) (P : List Nat → Prop)
    (hpres : ∀ s X, good s → P X → P (step s X)) :
    ∀ (l : List σ) (X : List Nat), (∀ s ∈ l, good s) → P X →
      P (l.foldl (fun Y s => step s Y) X) := by
  intro l
  induction l with
  | nil => intro X _ hX; exact hX
  | cons a l ih =>
    intro X hl hX
    exact ih (step a X) (fun s hs => hl s (by simp [hs]))
      (hpres a X (hl a (by simp)) hX)

/-! ### Properties of the invert/exchange step -/

theorem length_exchInvStep (Q i : Nat) (X : List Nat) :
    (exchInvStep Q i X).length = X.length := by
  unfold exchInvStep
  split <;> simp

/-- Equation for the invert branch. -/
theorem exchInvStep_invert {Q i : Nat} {X : List Nat} (h : X.getD i 0 &&& Q ≠ 0) :
    exchInvStep Q i X = X.set 0 (X.getD 0 0 ^^^ (Q - 1)) := by
  unfold exchInvStep
  rw [if_pos h]

/-- Equation for the exchange branch at a nonzero dimension index. -/
theorem exchInvStep_exchange {Q i : Nat} {X : List Nat} (hne : i ≠ 0)
    (h : ¬(X.getD i 0 &&& Q ≠ 0)) :
    exchInvStep Q i X =
      (X.set 0 (X.getD 0 0 ^^^ ((X.getD 0 0 ^^^ X.getD i 0) &&& (Q - 1)))).set i
        (X.getD i 0 ^^^ ((X.getD 0 0 ^^^ X.getD i 0) &&& (Q - 1))) := by
  unfold exchInvStep
  rw [if_neg h]
  show (X.set 0 (X.getD 0 0 ^^^ ((X.getD 0 0 ^^^ X.getD i 0) &&& (Q - 1)))).set i
      ((X.set 0 (X.getD 0 0 ^^^ ((X.getD 0 0 ^^^ X.getD i 0) &&& (Q - 1)))).getD i 0 ^^^
        ((X.getD 0 0 ^^^ X.getD i 0) &&& (Q - 1))) = _
  rw [getD_set_ne (Ne.symm hne)]

/-- The exchange branch at dimension 0 is a no-op (`t = 0` there). -/
theorem exchInvStep_exchange_zero {Q : Nat} {X : List Nat} (h0 : 0 < X.length)
    (h : ¬(X.getD 0 0 &&& Q ≠ 0)) :
    exchInvStep Q 0 X = X := by
  unfold exchInvStep
  rw [if_neg h]
  show (X.set 0 (X.getD 0 0 ^^^ ((X.getD 0 0 ^^^ X.getD 0 0) &&& (Q - 1)))).set 0
      ((X.set 0 (X.getD 0 0 ^^^ ((X.getD 0 0 ^^^ X.getD 0 0) &&& (Q - 1)))).getD 0 0 ^^^
        ((X.getD 0 0 ^^^ X.getD 0 0) &&& (Q - 1))) = X
  rw [Nat.xor_self, Nat.zero_and, Nat.xor_zero, getD_set_self h0, List.set_set,
    Nat.xor_zero, set_getD_self h0]

/-- The invert/exchange step is an involution (for power-of-two bit-planes
`Q ≥ 2` and in-range dimension index). -/
theorem exchInvStep_invol {q i : Nat} {X : List Nat} (hi : i < X.length) :
    exchInvStep (2 ^ q) i (exchInvStep (2 ^ q) i X) = X := by
  have hlen0 : 0 < X.length := Nat.lt_of_le_of_lt (Nat.zero_le i) hi
  have hPQ : (2 ^ q - 1) &&& 2 ^ q = 0 := two_pow_sub_one_and_two_pow q
  by_cases hbit : X.getD i 0 &&& 2 ^ q ≠ 0
  · -- invert: the mask `Q-1` leaves bit `q` of every slot alone
    rw [exchInvStep_invert hbit]
    have hbit2 : (X.set 0 (X.getD 0 0 ^^^ (2 ^ q - 1))).getD i 0 &&& 2 ^ q ≠ 0 := by
      rcases eq_or_ne i 0 with rfl | hne
      · rw [getD_set_self hlen0, Nat.and_xor_distrib_right, hPQ, Nat.xor_zero]
        exact hbit
      · rw [getD_set_ne (Ne.symm hne)]
        exact hbit
    rw [exchInvStep_invert hbit2, getD_set_self hlen0, List.set_set, xor_cancel_r,
      set_getD_self hlen0]
  · rcases eq_or_ne i 0 with rfl | hne
    · -- exchange at dimension 0 is a no-op
      rw [exchInvStep_exchange_zero hlen0 hbit, exchInvStep_exchange_zero hlen0 hbit]
    · -- exchange: swapping the low bits twice restores both slots
      have hbit0 : X.getD i 0 &&& 2 ^ q = 0 := not_ne_iff.mp hbit
      set x0 := X.getD 0 0 with hx0
      set xi := X.getD i 0 with hxi
      set t := (x0 ^^^ xi) &&& (2 ^ q - 1) with hts
      have htQ : t &&& 2 ^ q = 0 := by
        rw [hts, Nat.and_assoc, hPQ, Nat.and_zero]
      rw [exchInvStep_exchange hne hbit, ← hts]
      have hgdi : ((X.set 0 (x0 ^^^ t)).set i (xi ^^^ t)).getD i 0 = xi ^^^ t :=
        getD_set_self (by simpa using hi) _ _
      have hgd0 : ((X.set 0 (x0 ^^^ t)).set i (xi ^^^ t)).getD 0 0 = x0 ^^^ t := by
        rw [getD_set_ne hne, getD_set_self hlen0]
      have hbit2 : ¬(((X.set 0 (x0 ^^^ t)).set i (xi ^^^ t)).getD i 0 &&& 2 ^ q ≠ 0) := by
        rw [hgdi, Nat.and_xor_distrib_right, hbit0, htQ]
        simp
      rw [exchInvStep_exchange hne hbit2, hgdi, hgd0, xor_xor_cancel, ← hts,
        xor_cancel_r, xor_cancel_r]
      rw [List.set_comm _ _ _ hne, List.set_set, List.set_set, set_getD_self hlen0,
        set_getD_self hi]

/-- The invert/exchange step keeps all entries below `2^b` whenever its mask
`Q - 1` is below `2^b` (every value it writes is an XOR of an entry and a
value of at most `Q - 1`). -/
theorem exchInvStep_bounds {Q i b : Nat} (hQ : Q - 1 < 2 ^ b) {X : List Nat}
    (hX : ∀ x ∈ X, x < 2 ^ b) : ∀ y ∈ exchInvStep Q i X, y < 2 ^ b := by
  intro y hy
  unfold exchInvStep at hy
  split at hy
  · rcases List.mem_or_eq_of_mem_set hy with h | rfl
    · exact hX y h
    · exact Nat.xor_lt_two_pow (getD_lt_two_pow hX 0) hQ
  · have ht : (X.getD 0 0 ^^^ X.getD i 0) &&& (Q - 1) < 2 ^ b :=
      Nat.lt_of_le_of_lt Nat.and_le_right hQ
    have hX1 : ∀ x ∈ X.set 0 (X.getD 0 0 ^^^ (X.getD 0 0 ^^^ X.getD i 0) &&& (Q - 1)),
        x < 2 ^ b := by
      intro x hx
      rcases List.mem_or_eq_of_mem_set hx with h | rfl
      · exact hX x h
      · exact Nat.xor_lt_two_pow (getD_lt_two_pow hX 0) ht
    rcases List.mem_or_eq_of_mem_set hy with h | rfl
    · exact hX1 y h
    · exact Nat.xor_lt_two_pow (getD_lt_two_pow hX1 i) ht

/-! ### The two rotation double loops are mutually inverse -/

/-- `qListAsc` unfolds one step at the top. -/
theorem qListAsc_succ (b : Nat) (hb : 1 ≤ b) :
    qListAsc (b + 1) = qListAsc b ++ [2 ^ b] := by
  unfold qListAsc
  rw [show b + 1 - 1 = (b - 1) + 1 by omega, List.range'_concat]
  simp only [List.map_append, List.map_cons, List.map_nil]
  rw [show 1 + 1 * (b - 1) = b by omega]

/-- Every bit-plane in `qListAsc b` is `2^q` for some `1 ≤ q ≤ b - 1`. -/
theorem mem_qListAsc {b Q : Nat} (h : Q ∈ qListAsc b) :
    ∃ q, 1 ≤ q ∧ q ≤ b - 1 ∧ Q = 2 ^ q := by
  unfold qListAsc at h
  rcases List.mem_map.mp h with ⟨q, hq, rfl⟩
  rcases List.mem_range'.mp hq with ⟨j, hj, rfl⟩
  exact ⟨1 + 1 * j, by omega, by omega, rfl⟩

/-- The `TransposetoAxes` double loop visits exactly the reverse of the
`AxestoTranspose` double loop. -/
theorem transposePairs_eq_reverse (b n : Nat) :
    transposePairs b n = (axesPairs b n).reverse := by
  unfold transposePairs axesPairs qListDesc
  rw [List.flatMap_reverse, List.reverse_reverse]
  simp only [List.map_reverse]
  rfl

/-- Membership facts for the pair lists. -/
theorem mem_axesPairs {b n : Nat} {p : Nat × Nat} (h : p ∈ axesPairs b n) :
    (∃ q, 1 ≤ q ∧ q ≤ b - 1 ∧ p.1 = 2 ^ q) ∧ p.2 < n := by
  unfold axesPairs qListDesc at h
  rcases List.mem_flatMap.mp h with ⟨Q, hQ, hp⟩
  rcases List.mem_map.mp hp with ⟨i, hi, rfl⟩
  exact ⟨mem_qListAsc (List.mem_reverse.mp hQ), List.mem_range.mp hi⟩

/-- The fold of invert/exchange steps preserves the length. -/
theorem foldl_exchInv_length (l : List (Nat × Nat)) (X : List Nat) :
    (l.foldl (fun Y p => exchInvStep p.1 p.2 Y) X).length = X.length := by
  induction l generalizing X with
  | nil => rfl
  | cons a l ih => rw [List.foldl_cons, ih, length_exchInvStep]

/-- Running the `AxestoTranspose` double loop and then the `TransposetoAxes`
double loop restores the coordinate vector: the pair sequences are exact
reverses of each other and every single step is an involution. -/
theorem rotation_cancel {b n : Nat} {X : List Nat} (hlen : X.length = n) :
    (transposePairs b n).foldl (fun Y p => exchInvStep p.1 p.2 Y)
      ((axesPairs b n).foldl (fun Y p => exchInvStep p.1 p.2 Y) X) = X := by
  rw [transposePairs_eq_reverse]
  exact foldl_reverse_cancel (fun p Y => exchInvStep p.1 p.2 Y)
    (fun p => (∃ q, 1 ≤ q ∧ q ≤ b - 1 ∧ p.1 = 2 ^ q) ∧ p.2 < n)
    (fun Y => Y.length = n)
    (fun s Y _ hY => by
      show (exchInvStep s.1 s.2 Y).length = n
      rw [length_exchInvStep]
      exact hY)
    (fun s Y hs hY => by
      rcases hs with ⟨⟨q, _, _, hQ⟩, hi⟩
      have hY' : Y.length = n := hY
      show exchInvStep s.1 s.2 (exchInvStep s.1 s.2 Y) = Y
      rw [hQ]
      exact exchInvStep_invol (by rw [hY']; exact hi))
    (axesPairs b n) X (fun p hp => mem_axesPairs hp) hlen

/-- The rotation folds keep all coordinates below `2^b`. -/
theorem foldl_exchInv_bounds {b : Nat} {l : List (Nat × Nat)}
    (hl : ∀ p ∈ l, ∃ q, 1 ≤ q ∧ q ≤ b - 1 ∧ p.1 = 2 ^ q) {X : List Nat}
    (hX : ∀ x ∈ X, x < 2 ^ b) :
    ∀ y ∈ l.foldl (fun Y p => exchInvStep p.1 p.2 Y) X, y < 2 ^ b := by
  refine foldl_preserve (fun p Y => exchInvStep p.1 p.2 Y)
    (fun p => ∃ q, 1 ≤ q ∧ q ≤ b - 1 ∧ p.1 = 2 ^ q)
    (fun Y => ∀ y ∈ Y, y < 2 ^ b)
    (fun s Y hs hY => ?_) l X hl hX
  rcases hs with ⟨q, hq1, hq2, hQ⟩
  apply exchInvStep_bounds _ hY
  rw [hQ]
  have h1 : 2 ^ q ≤ 2 ^ b := Nat.pow_le_pow_right (by norm_num) (by omega)
  have h2 : 0 < 2 ^ q := Nat.pos_pow_of_pos _ (by norm_num)
  omega

/-! ### The Gray-code chains -/

/-- XOR of the entries `X[0..i]` — the value the ascending chain leaves in
slot `i`. -/
def prefXor (X : List Nat) (i : Nat) : Nat :=
  (X.take (i + 1)).foldl (fun a x => a ^^^ x) 0

theorem prefXor_zero {X : List Nat} (h : 0 < X.length) :
    prefXor X 0 = X.getD 0 0 := by
  cases X with
  | nil => simp at h
  | cons a l => simp [prefXor]

theorem prefXor_succ {X : List Nat} {i : Nat} (h : i + 1 < X.length) :
    prefXor X (i + 1) = prefXor X i ^^^ X.getD (i + 1) 0 := by
  unfold prefXor
  rw [List.take_succ, List.getElem?_eq_getElem h, List.foldl_append,
    getD_eq_getElem h]
  rfl

theorem foldl_xor_lt {b : Nat} :
    ∀ (L : List Nat) (a : Nat), a < 2 ^ b → (∀ x ∈ L, x < 2 ^ b) →
      L.foldl (fun a x => a ^^^ x) a < 2 ^ b := by
  intro L
  induction L with
  | nil => intro a ha _; exact ha
  | cons x L ih =>
    intro a ha hL
    exact ih (a ^^^ x) (Nat.xor_lt_two_pow ha (hL x (by simp)))
      (fun y hy => hL y (by simp [hy]))

theorem prefXor_lt {b : Nat} {X : List Nat} (hX : ∀ x ∈ X, x < 2 ^ b) (i : Nat) :
    prefXor X i < 2 ^ b :=
  foldl_xor_lt _ 0 (Nat.pos_pow_of_pos _ (by norm_num))
    (fun x hx => hX x (List.mem_of_mem_take hx))

theorem length_xorStep (i : Nat) (X : List Nat) :
    (xorStep i X).length = X.length := by
  simp [xorStep]

theorem foldl_xorStep_length (l : List Nat) (X : List Nat) :
    (l.foldl (fun Y j => xorStep j Y) X).length = X.length := by
  induction l generalizing X with
  | nil => rfl
  | cons a l ih => rw [List.foldl_cons, ih, length_xorStep]

/-- Slot contents after the ascending chain `X[j] ^= X[j-1]`, `j = 1 .. m`:
slots up to `m` hold prefix XORs, the rest are untouched. -/
theorem ascChain_getD {X : List Nat} :
    ∀ m, m < X.length → ∀ i, i < X.length →
      ((List.range' 1 m).foldl (fun Y j => xorStep j Y) X).getD i 0 =
        if i ≤ m then prefXor X i else X.getD i 0 := by
  intro m
  induction m with
  | zero =>
    intro h0 i _
    simp only [List.range'_zero, List.foldl_nil]
    split
    · next hle =>
      have : i = 0 := by omega
      subst this
      exact (prefXor_zero (by omega)).symm
    · rfl
  | succ m ih =>
    intro hm i hi
    have hm' : m < X.length := by omega
    rw [show List.range' 1 (m + 1) = List.range' 1 m ++ [1 + 1 * m] from
      List.range'_concat 1 m, List.foldl_append]
    rw [show 1 + 1 * m = m + 1 by omega]
    set L := (List.range' 1 m).foldl (fun Y j => xorStep j Y) X with hL
    have hLlen : L.length = X.length := foldl_xorStep_length _ _
    have hstep : List.foldl (fun Y j => xorStep j Y) L [m + 1] =
        L.set (m + 1) (L.getD (m + 1) 0 ^^^ L.getD m 0) := by
      show xorStep (m + 1) L = _
      unfold xorStep
      rw [show m + 1 - 1 = m by omega]
    rw [hstep]
    have hgd1 : L.getD (m + 1) 0 = X.getD (m + 1) 0 := by
      rw [ih hm' (m + 1) hm]
      split
      · omega
      · rfl
    have hgd2 : L.getD m 0 = prefXor X m := by
      rw [ih hm' m hm']
      split
      · rfl
      · omega
    rcases eq_or_ne i (m + 1) with rfl | hne
    · rw [getD_set_self (by omega), hgd1, hgd2, Nat.xor_comm,
        ← prefXor_succ hm]
      split
      · rfl
      · omega
    · rw [getD_set_ne (Ne.symm hne), ih hm' i hi]
      rcases Nat.lt_trichotomy i (m + 1) with h | h | h
      · rw [if_pos (by omega), if_pos (by omega)]
      · exact absurd h hne
      · rw [if_neg (by omega), if_neg (by omega)]

/-- Slot contents after the descending chain `X[j] ^= X[j-1]`, `j = m .. 1`:
slots `1 .. m` hold adjacent XORs of the original entries, the rest are
untouched. -/
theorem descChain_getD {X : List Nat} :
    ∀ m, m < X.length → ∀ i,
      (((List.range' 1 m).reverse).foldl (fun Y j => xorStep j Y) X).getD i 0 =
        if 1 ≤ i ∧ i < 1 + m then X.getD i 0 ^^^ X.getD (i - 1) 0
        else X.getD i 0 := by
  intro m
  induction m generalizing X with
  | zero =>
    intro _ i
    simp only [List.range'_zero, List.reverse_nil, List.foldl_nil]
    rw [if_neg (by omega)]
  | succ m ih =>
    intro hm i
    rw [show List.range' 1 (m + 1) = List.range' 1 m ++ [1 + 1 * m] from
      List.range'_concat 1 m, List.reverse_append]
    rw [show 1 + 1 * m = m + 1 by omega]
    show (((List.range' 1 m).reverse).foldl (fun Y j => xorStep j Y)
        (xorStep (m + 1) X)).getD i 0 = _
    have hset : xorStep (m + 1) X =
        X.set (m + 1) (X.getD (m + 1) 0 ^^^ X.getD m 0) := by
      unfold xorStep
      rw [show m + 1 - 1 = m by omega]
    have hlen' : m < (xorStep (m + 1) X).length := by
      rw [length_xorStep]; omega
    rw [ih hlen' i, hset]
    rcases Nat.lt_trichotomy i (m + 1) with h | h | h
    · by_cases h1 : 1 ≤ i
      · rw [if_pos (by omega), if_pos (by omega),
          getD_set_ne (by omega), getD_set_ne (by omega)]
      · rw [if_neg (by omega), if_neg (by omega), getD_set_ne (by omega)]
    · subst h
      rw [if_neg (by omega), if_pos (by omega), getD_set_self (by omega),
        show m + 1 - 1 = m by omega]
    · rw [if_neg (by omega), if_neg (by omega), getD_set_ne (by omega)]

/-! ### The Gray correction term -/

/-- The `t`-accumulating fold of `AxestoTranspose` lines 78-85, with an
arbitrary starting accumulator. -/
def tFold (x : Nat) (l : List Nat) (t : Nat) : Nat :=
  l.foldl (fun t Q => if x &&& Q ≠ 0 then t ^^^ (Q - 1) else t) t

theorem tCorrection_eq_tFold (b x : Nat) :
    tCorrection b x = tFold x (qListDesc b) 0 := rfl

/-- The accumulator of `tFold` factors out by XOR. -/
theorem tFold_init (x : Nat) (l : List Nat) :
    ∀ t, tFold x l t = t ^^^ tFold x l 0 := by
  induction l with
  | nil =>
    intro t
    show t = t ^^^ 0
    rw [Nat.xor_zero]
  | cons Q l ih =>
    intro t
    show tFold x l (if x &&& Q ≠ 0 then t ^^^ (Q - 1) else t) =
      t ^^^ tFold x l (if x &&& Q ≠ 0 then 0 ^^^ (Q - 1) else 0)
    by_cases h : x &&& Q ≠ 0
    · rw [if_pos h, if_pos h, ih, ih (0 ^^^ (Q - 1)), Nat.zero_xor, Nat.xor_assoc]
    · rw [if_neg h, if_neg h, ih]

theorem qListDesc_succ {b : Nat} (hb : 1 ≤ b) :
    qListDesc (b + 1) = 2 ^ b :: qListDesc b := by
  unfold qListDesc
  rw [qListAsc_succ b hb, List.reverse_append]
  rfl

/-- Peeling the top bit-plane off the correction accumulator. -/
theorem tCorrection_succ {b : Nat} (hb : 1 ≤ b) (x : Nat) :
    tCorrection (b + 1) x =
      (if x &&& 2 ^ b ≠ 0 then 2 ^ b - 1 else 0) ^^^ tCorrection b x := by
  rw [tCorrection_eq_tFold, tCorrection_eq_tFold, qListDesc_succ hb]
  show tFold x (qListDesc b) (if x &&& 2 ^ b ≠ 0 then 0 ^^^ (2 ^ b - 1) else 0) = _
  rw [tFold_init, Nat.zero_xor]

/-- `tCorrection 1 x = 0` and `tCorrection 0 x = 0` (empty bit-plane lists). -/
theorem tCorrection_le_one {b : Nat} (hb : b ≤ 1) (x : Nat) : tCorrection b x = 0 := by
  interval_cases b <;> rfl

/-- XOR of bits `q` of `x` with `k < q < b` — the bitwise specification of
`tCorrection`. -/
def gSpec : Nat → Nat → Nat → Bool
  | 0, _, _ => false
  | b + 1, x, k => ((decide (k < b) && x.testBit b)).xor (gSpec b x k)

theorem gSpec_high : ∀ b x k, b ≤ k + 1 → gSpec b x k = false := by
  intro b
  induction b with
  | zero => intro x k _; rfl
  | succ b ih =>
    intro x k h
    show ((decide (k < b) && x.testBit b)).xor (gSpec b x k) = false
    rw [ih x k (by omega), decide_eq_false (by omega), Bool.false_and, Bool.false_xor]

theorem gSpec_congr {b x y : Nat} (h : ∀ j, j < b → x.testBit j = y.testBit j) :
    ∀ k, gSpec b x k = gSpec b y k := by
  induction b with
  | zero => intro k; rfl
  | succ b ih =>
    intro k
    show ((decide (k < b) && x.testBit b)).xor (gSpec b x k) =
      ((decide (k < b) && y.testBit b)).xor (gSpec b y k)
    rw [h b (by omega), ih (fun j hj => h j (by omega)) k]

/-- The correction accumulator computes `gSpec`, bit by bit. -/
theorem tCorrection_testBit (b x k : Nat) :
    (tCorrection b x).testBit k = gSpec b x k := by
  induction b with
  | zero => rw [tCorrection_le_one (by omega), Nat.zero_testBit]; rfl
  | succ b ih =>
    rcases Nat.eq_zero_or_pos b with rfl | hb
    · rw [tCorrection_le_one (by omega), Nat.zero_testBit]
      show false = ((decide (k < 0) && x.testBit 0)).xor (gSpec 0 x k)
      rw [decide_eq_false (by omega), Bool.false_and, Bool.false_xor]
      rfl
    · rw [tCorrection_succ hb, Nat.testBit_xor, ih]
      show ((if x &&& 2 ^ b ≠ 0 then 2 ^ b - 1 else 0).testBit k).xor (gSpec b x k) =
        ((decide (k < b) && x.testBit b)).xor (gSpec b x k)
      by_cases h : x.testBit b
      · rw [if_pos ((and_two_pow_ne_zero_iff x b).mpr h), Nat.testBit_two_pow_sub_one,
          h, Bool.and_true]
      · rw [if_neg (fun hc => h ((and_two_pow_ne_zero_iff x b).mp hc)), Nat.zero_testBit,
          show x.testBit b = false by simpa using h, Bool.and_false]

/-- Key step: shifting `x ^^^ gSpec`-correction right by one reproduces the
correction — by induction on the width, splitting on the top bit. -/
theorem gSpec_step : ∀ b x, x < 2 ^ b → ∀ k,
    (x.testBit (k + 1)).xor (gSpec b x (k + 1)) = gSpec b x k := by
  intro b
  induction b with
  | zero =>
    intro x hx k
    have : x = 0 := by omega
    subst this
    rw [Nat.zero_testBit]
    rfl
  | succ b ih =>
    intro x hx k
    by_cases hbit : x.testBit b
    · -- top bit set: strip it, the mask `2^b - 1` part shifts in sync
      set x' := x ^^^ 2 ^ b with hx'
      have hxbits : ∀ j, j < b → x.testBit j = x'.testBit j := by
        intro j hj
        rw [hx', Nat.testBit_xor, Nat.testBit_two_pow_of_ne (by omega), Bool.xor_false]
      have hx'lt : x' < 2 ^ b := by
        apply Nat.lt_pow_two_of_testBit
        intro i hi
        rcases eq_or_ne i b with rfl | hne
        · rw [hx', Nat.testBit_xor, hbit, Nat.testBit_two_pow_self]
          rfl
        · rw [hx', Nat.testBit_xor, Nat.testBit_two_pow_of_ne (by omega), Bool.xor_false]
          exact Nat.testBit_lt_two_pow
            (Nat.lt_of_lt_of_le hx (Nat.pow_le_pow_right (by norm_num) (by omega)))
      have hgs : ∀ k', gSpec b x k' = gSpec b x' k' := gSpec_congr hxbits
      show (x.testBit (k + 1)).xor (((decide (k + 1 < b) && x.testBit b)).xor (gSpec b x (k + 1))) =
        ((decide (k < b) && x.testBit b)).xor (gSpec b x k)
      rcases Nat.lt_trichotomy (k + 1) b with h | h | h
      · rw [decide_eq_true h, decide_eq_true (by omega), hbit,
          hgs, hgs, hxbits (k + 1) h, ← ih x' hx'lt k]
        cases x'.testBit (k + 1) <;> cases gSpec b x' (k + 1) <;> rfl
      · -- k + 1 = b: the left side is the top bit itself
        subst h
        have hx'b : x'.testBit (k + 1) = false := by
          rw [hx', Nat.testBit_xor, hbit, Nat.testBit_two_pow_self]
          rfl
        have hgx' : gSpec (k + 1) x' k = false := by
          rw [← ih x' hx'lt k, hx'b, gSpec_high (k + 1) x' (k + 1) (by omega)]
          rfl
        rw [hgs k, hgx', hbit, gSpec_high (k + 1) x (k + 1) (by omega),
          decide_eq_false (by omega), decide_eq_true (by omega)]
        rfl
      · rw [gSpec_high b x (k + 1) (by omega), gSpec_high b x k (by omega),
          decide_eq_false (by omega), decide_eq_false (by omega),
          Nat.testBit_lt_two_pow
            (Nat.lt_of_lt_of_le hx (Nat.pow_le_pow_right (by norm_num) (by omega)))]
        rfl
    · -- top bit clear: reduce to width b
      have hxlt : x < 2 ^ b := by
        apply Nat.lt_pow_two_of_testBit
        intro i hi
        rcases eq_or_ne i b with rfl | hne
        · exact Bool.eq_false_iff.mpr hbit
        · exact Nat.testBit_lt_two_pow
            (Nat.lt_of_lt_of_le hx (Nat.pow_le_pow_right (by norm_num) (by omega)))
      show (x.testBit (k + 1)).xor (((decide (k + 1 < b) && x.testBit b)).xor (gSpec b x (k + 1))) =
        ((decide (k < b) && x.testBit b)).xor (gSpec b x k)
      rw [Bool.eq_false_iff.mpr hbit, Bool.and_false, Bool.and_false, Bool.false_xor,
        Bool.false_xor]
      exact ih x hxlt k

/-- The source's Gray correction `t` satisfies `(x ^^^ t) >> 1 = t` for any
`b`-bit `x` — the identity that makes the decoder's `t = X[n-1] >> 1`
recover the encoder's correction. -/
theorem tCorrection_shift {b x : Nat} (hx : x < 2 ^ b) :
    (x ^^^ tCorrection b x) >>> 1 = tCorrection b x := by
  apply Nat.eq_of_testBit_eq
  intro k
  rw [Nat.testBit_shiftRight, Nat.testBit_xor, tCorrection_testBit, tCorrection_testBit,
    show 1 + k = k + 1 by omega]
  exact gSpec_step b x hx k

/-- Every bit-plane value in `qListDesc b` is a power of two `2^q`,
`1 ≤ q ≤ b - 1`. -/
theorem mem_qListDesc {b Q : Nat} (h : Q ∈ qListDesc b) :
    ∃ q, 1 ≤ q ∧ q ≤ b - 1 ∧ Q = 2 ^ q := by
  unfold qListDesc at h
  exact mem_qListAsc (List.mem_reverse.mp h)

theorem tFold_lt {b x : Nat} : ∀ l : List Nat, (∀ Q ∈ l, Q - 1 < 2 ^ b) →
    tFold x l 0 < 2 ^ b := by
  intro l
  induction l with
  | nil => exact fun _ => Nat.pos_pow_of_pos _ (by norm_num)
  | cons Q l ih =>
    intro hmem
    show tFold x l (if x &&& Q ≠ 0 then 0 ^^^ (Q - 1) else 0) < 2 ^ b
    rw [tFold_init]
    apply Nat.xor_lt_two_pow _ (ih (fun P hP => hmem P (by simp [hP])))
    split
    · rw [Nat.zero_xor]
      exact hmem Q (by simp)
    · exact Nat.pos_pow_of_pos _ (by norm_num)

/-- The correction term stays below `2^b`. -/
theorem tCorrection_lt (b x : Nat) : tCorrection b x < 2 ^ b := by
  rw [tCorrection_eq_tFold]
  apply tFold_lt
  intro Q hQ
  rcases mem_qListDesc hQ with ⟨q, _, hq2, rfl⟩
  have h1 : 2 ^ q ≤ 2 ^ b := Nat.pow_le_pow_right (by norm_num) (by omega)
  have h2 : 0 < 2 ^ q := Nat.pos_pow_of_pos _ (by norm_num)
  omega

/-! ### Gray encode / decode are mutually inverse -/

/-- List extensionality through `getD`. -/
theorem ext_getD {X Y : List Nat} (hlen : X.length = Y.length)
    (h : ∀ i, i < X.length → X.getD i 0 = Y.getD i 0) : X = Y := by
  apply List.ext_getElem hlen
  intro i h1 h2
  rw [← getD_eq_getElem h1 0, ← getD_eq_getElem h2 0]
  exact h i h1

theorem grayEncode_eq (b n : Nat) (X : List Nat) :
    grayEncode b n X =
      ((List.range' 1 (n - 1)).foldl (fun Y i => xorStep i Y) X).map
        (fun x => x ^^^ tCorrection b
          (((List.range' 1 (n - 1)).foldl (fun Y i => xorStep i Y) X).getD (n - 1) 0)) := rfl

theorem grayDecode_eq (n : Nat) (X : List Nat) :
    grayDecode n X =
      (((List.range' 1 (n - 1)).reverse).foldl (fun Y i => xorStep i Y) X).set 0
        ((((List.range' 1 (n - 1)).reverse).foldl (fun Y i => xorStep i Y) X).getD 0 0 ^^^
          (X.getD (n - 1) 0 >>> 1)) := rfl

/-- The Gray-decode phase inverts the Gray-encode phase on length-`n`
vectors of `b`-bit entries. -/
theorem grayDecode_grayEncode {b n : Nat} {X : List Nat} (hn : 1 ≤ n)
    (hlen : X.length = n) (hX : ∀ x ∈ X, x < 2 ^ b) :
    grayDecode n (grayEncode b n X) = X := by
  have hn1 : n - 1 < X.length := by omega
  set Z := (List.range' 1 (n - 1)).foldl (fun Y i => xorStep i Y) X with hZ
  have hZlen : Z.length = n := by rw [hZ, foldl_xorStep_length, hlen]
  have hZchar : ∀ i, i < n → Z.getD i 0 = prefXor X i := by
    intro i hi
    rw [hZ, ascChain_getD (n - 1) hn1 i (by omega), if_pos (by omega)]
  set t := tCorrection b (Z.getD (n - 1) 0) with ht
  have henc : grayEncode b n X = Z.map (fun x => x ^^^ t) := by
    rw [grayEncode_eq, ← hZ, ← ht]
  set W := Z.map (fun x => x ^^^ t) with hW
  have hWlen : W.length = n := by rw [hW, List.length_map, hZlen]
  have hWchar : ∀ i, i < n → W.getD i 0 = prefXor X i ^^^ t := by
    intro i hi
    rw [hW, getD_map _ (by omega), hZchar i hi]
  have htp : W.getD (n - 1) 0 >>> 1 = t := by
    rw [hWchar (n - 1) (by omega), ht, hZchar (n - 1) (by omega)]
    exact tCorrection_shift (prefXor_lt hX _)
  rw [henc, grayDecode_eq, htp]
  set V := ((List.range' 1 (n - 1)).reverse).foldl (fun Y i => xorStep i Y) W with hV
  have hVlen : V.length = n := by rw [hV, foldl_xorStep_length, hWlen]
  have hVchar : ∀ i, V.getD i 0 =
      if 1 ≤ i ∧ i < 1 + (n - 1) then W.getD i 0 ^^^ W.getD (i - 1) 0
      else W.getD i 0 := by
    intro i
    rw [hV, descChain_getD (n - 1) (by omega) i]
  apply ext_getD (by simp [hVlen, hlen])
  intro i hi
  have hi' : i < n := by simpa [hVlen] using hi
  rcases Nat.eq_zero_or_pos i with rfl | hipos
  · rw [getD_set_self (by omega), hVchar 0, if_neg (by omega), hWchar 0 (by omega),
      xor_cancel_r, prefXor_zero (by omega)]
  · rw [getD_set_ne (by omega), hVchar i, if_pos (by omega), hWchar i hi',
      hWchar (i - 1) (by omega), xor_xor_cancel,
      show i = i - 1 + 1 by omega, prefXor_succ (by omega),
      Nat.xor_comm (prefXor X (i - 1)) (X.getD (i - 1 + 1) 0), Nat.add_sub_cancel,
      xor_cancel_r]

/-! ### The full round trip -/

/-- `TransposetoAxes` inverts `AxestoTranspose` on length-`n` vectors of
`b`-bit entries. -/
theorem roundtrip_axes {b n : Nat} {X : List Nat} (hn : 1 ≤ n)
    (hlen : X.length = n) (hX : ∀ x ∈ X, x < 2 ^ b) :
    TransposetoAxes (AxestoTranspose X b n) b n = X := by
  unfold AxestoTranspose TransposetoAxes
  set R := (axesPairs b n).foldl (fun Y p => exchInvStep p.1 p.2 Y) X with hR
  have hRlen : R.length = n := by rw [hR, foldl_exchInv_length, hlen]
  have hRX : ∀ x ∈ R, x < 2 ^ b :=
    foldl_exchInv_bounds (fun p hp => (mem_axesPairs hp).1) hX
  rw [grayDecode_grayEncode hn hRlen hRX, hR]
  exact rotation_cancel hlen

/-! ### Bounds preservation by the two transforms -/

theorem xorStep_bounds {b i : Nat} {X : List Nat} (hX : ∀ x ∈ X, x < 2 ^ b) :
    ∀ y ∈ xorStep i X, y < 2 ^ b := by
  intro y hy
  unfold xorStep at hy
  rcases List.mem_or_eq_of_mem_set hy with h | rfl
  · exact hX y h
  · exact Nat.xor_lt_two_pow (getD_lt_two_pow hX i) (getD_lt_two_pow hX (i - 1))

theorem foldl_xorStep_bounds {b : Nat} {l : List Nat} {X : List Nat}
    (hX : ∀ x ∈ X, x < 2 ^ b) :
    ∀ y ∈ l.foldl (fun Y j => xorStep j Y) X, y < 2 ^ b :=
  foldl_preserve (fun j Y => xorStep j Y) (fun _ => True)
    (fun Y => ∀ y ∈ Y, y < 2 ^ b)
    (fun _ Y _ hY => xorStep_bounds hY) l X (fun _ _ => trivial) hX

theorem grayEncode_bounds {b n : Nat} {X : List Nat} (hX : ∀ x ∈ X, x < 2 ^ b) :
    ∀ y ∈ grayEncode b n X, y < 2 ^ b := by
  rw [grayEncode_eq]
  intro y hy
  rcases List.mem_map.mp hy with ⟨x, hx, rfl⟩
  exact Nat.xor_lt_two_pow (foldl_xorStep_bounds hX x hx) (tCorrection_lt _ _)

theorem grayDecode_bounds {b n : Nat} {X : List Nat} (hX : ∀ x ∈ X, x < 2 ^ b) :
    ∀ y ∈ grayDecode n X, y < 2 ^ b := by
  rw [grayDecode_eq]
  intro y hy
  have hL : ∀ z ∈ ((List.range' 1 (n - 1)).reverse).foldl (fun Y i => xorStep i Y) X,
      z < 2 ^ b := foldl_xorStep_bounds hX
  rcases List.mem_or_eq_of_mem_set hy with h | rfl
  · exact hL y h
  · apply Nat.xor_lt_two_pow (getD_lt_two_pow hL 0)
    have h1 : X.getD (n - 1) 0 < 2 ^ b := getD_lt_two_pow hX (n - 1)
    have h2 : X.getD (n - 1) 0 >>> 1 = X.getD (n - 1) 0 / 2 ^ 1 :=
      Nat.shiftRight_eq_div_pow _ _
    have h3 : X.getD (n - 1) 0 / 2 ^ 1 ≤ X.getD (n - 1) 0 := Nat.div_le_self _ _
    omega

theorem mem_transposePairs {b n : Nat} {p : Nat × Nat} (h : p ∈ transposePairs b n) :
    (∃ q, 1 ≤ q ∧ q ≤ b - 1 ∧ p.1 = 2 ^ q) ∧ p.2 < n := by
  rw [transposePairs_eq_reverse] at h
  exact mem_axesPairs (List.mem_reverse.mp h)

/-- `AxestoTranspose` keeps all coordinates within `b` bits. -/
theorem axesToTranspose_bounds {b n : Nat} {X : List Nat} (hX : ∀ x ∈ X, x < 2 ^ b) :
    ∀ y ∈ AxestoTranspose X b n, y < 2 ^ b := by
  unfold AxestoTranspose
  exact grayEncode_bounds
    (foldl_exchInv_bounds (fun p hp => (mem_axesPairs hp).1) hX)

/-- `TransposetoAxes` keeps all coordinates within `b` bits. -/
theorem transposeToAxes_bounds {b n : Nat} {X : List Nat} (hX : ∀ x ∈ X, x < 2 ^ b) :
    ∀ y ∈ TransposetoAxes X b n, y < 2 ^ b := by
  unfold TransposetoAxes
  exact foldl_exchInv_bounds (fun p hp => (mem_transposePairs hp).1)
    (grayDecode_bounds hX)

/-! ### The degenerate case `b = 1` -/

theorem qListAsc_one : qListAsc 1 = [] := rfl

/-- For `b = 1` no invert/exchange bit-plane executes and the correction is
zero: `AxestoTranspose` is the ascending Gray chain alone. -/
theorem axesToTranspose_b1 (n : Nat) (X : List Nat) :
    AxestoTranspose X 1 n = (List.range' 1 (n - 1)).foldl (fun Y i => xorStep i Y) X := by
  unfold AxestoTranspose
  have hpairs : axesPairs 1 n = [] := rfl
  rw [hpairs]
  show grayEncode 1 n X = _
  rw [grayEncode_eq, tCorrection_le_one (by omega)]
  simp only [Nat.xor_zero]
  exact List.map_id' _

/-- For `b = 1`, `TransposetoAxes` is the Gray decode phase alone. -/
theorem transposeToAxes_b1 (n : Nat) (X : List Nat) :
    TransposetoAxes X 1 n = grayDecode n X := by
  unfold TransposetoAxes
  have hpairs : transposePairs 1 n = [] := rfl
  rw [hpairs]
  rfl

/-! ### The one-dimensional case -/

/-- The invert/exchange cascade collapsed to a single coordinate. -/
def rotate1 (b x : Nat) : Nat :=
  (qListDesc b).foldl (fun y Q => if y &&& Q ≠ 0 then y ^^^ (Q - 1) else y) x

theorem exchInvStep_singleton (Q x : Nat) :
    exchInvStep Q 0 [x] = [if x &&& Q ≠ 0 then x ^^^ (Q - 1) else x] := by
  by_cases h : x &&& Q ≠ 0
  · rw [if_pos h]
    unfold exchInvStep
    rw [if_pos (show ([x].getD 0 0) &&& Q ≠ 0 from h)]
    rfl
  · rw [if_neg h]
    exact exchInvStep_exchange_zero (by simp) h

theorem foldl_exchInv_singleton :
    ∀ (l : List Nat) (x : Nat),
      ((l.flatMap fun Q => [(Q, (0 : Nat))]).foldl (fun Y p => exchInvStep p.1 p.2 Y) [x]) =
        [l.foldl (fun y Q => if y &&& Q ≠ 0 then y ^^^ (Q - 1) else y) x] := by
  intro l
  induction l with
  | nil => intro x; rfl
  | cons Q l ih =>
    intro x
    show ((l.flatMap fun Q => [(Q, (0 : Nat))]).foldl (fun Y p => exchInvStep p.1 p.2 Y)
        (exchInvStep Q 0 [x])) = _
    rw [exchInvStep_singleton, ih]
    rfl

theorem xor_left_comm (a b c : Nat) : a ^^^ (b ^^^ c) = b ^^^ (a ^^^ c) := by
  rw [← Nat.xor_assoc, Nat.xor_comm a b, Nat.xor_assoc]

theorem xor_cancel_l (a b : Nat) : a ^^^ (b ^^^ a) = b := by
  rw [Nat.xor_comm b a, ← Nat.xor_assoc, Nat.xor_self, Nat.zero_xor]

theorem rotate1_le_one {b : Nat} (hb : b ≤ 1) (x : Nat) : rotate1 b x = x := by
  interval_cases b <;> rfl

theorem rotate1_succ {b : Nat} (hb : 1 ≤ b) (x : Nat) :
    rotate1 (b + 1) x =
      rotate1 b (if x &&& 2 ^ b ≠ 0 then x ^^^ (2 ^ b - 1) else x) := by
  unfold rotate1
  rw [qListDesc_succ hb]
  rfl

theorem rotFold_lt {b : Nat} :
    ∀ l : List Nat, (∀ Q ∈ l, Q - 1 < 2 ^ b) → ∀ x, x < 2 ^ b →
      l.foldl (fun y Q => if y &&& Q ≠ 0 then y ^^^ (Q - 1) else y) x < 2 ^ b := by
  intro l
  induction l with
  | nil => intro _ x hx; exact hx
  | cons Q l ih =>
    intro hmem x hx
    show l.foldl _ (if x &&& Q ≠ 0 then x ^^^ (Q - 1) else x) < 2 ^ b
    apply ih (fun P hP => hmem P (by simp [hP]))
    split
    · exact Nat.xor_lt_two_pow hx (hmem Q (by simp))
    · exact hx

theorem rotate1_lt {b x : Nat} (hx : x < 2 ^ b) : rotate1 b x < 2 ^ b := by
  apply rotFold_lt _ _ _ hx
  intro Q hQ
  rcases mem_qListDesc hQ with ⟨q, _, hq2, rfl⟩
  have h1 : 2 ^ q ≤ 2 ^ b := Nat.pow_le_pow_right (by norm_num) (by omega)
  have h2 : 0 < 2 ^ q := Nat.pos_pow_of_pos _ (by norm_num)
  omega

/-- The collapsed cascade only tests bits below `c`, so an XOR-ed-in high bit
rides along. -/
theorem rotFold_xor_high {c : Nat} :
    ∀ l : List Nat, (∀ Q ∈ l, ∃ q, q < c ∧ Q = 2 ^ q) → ∀ x,
      l.foldl (fun y Q => if y &&& Q ≠ 0 then y ^^^ (Q - 1) else y) (2 ^ c ^^^ x) =
        2 ^ c ^^^ l.foldl (fun y Q => if y &&& Q ≠ 0 then y ^^^ (Q - 1) else y) x := by
  intro l
  induction l with
  | nil => intro _ x; rfl
  | cons Q l ih =>
    intro hmem x
    rcases hmem Q (by simp) with ⟨q, hqc, rfl⟩
    show l.foldl _
        (if (2 ^ c ^^^ x) &&& 2 ^ q ≠ 0 then (2 ^ c ^^^ x) ^^^ (2 ^ q - 1)
         else (2 ^ c ^^^ x)) =
      2 ^ c ^^^ l.foldl _ (if x &&& 2 ^ q ≠ 0 then x ^^^ (2 ^ q - 1) else x)
    rw [xor_two_pow_and_two_pow (by omega)]
    by_cases h : x &&& 2 ^ q ≠ 0
    · rw [if_pos h, if_pos h, Nat.xor_assoc]
      exact ih (fun P hP => hmem P (by simp [hP])) _
    · rw [if_neg h, if_neg h]
      exact ih (fun P hP => hmem P (by simp [hP])) _

theorem tFold_xor_high {c x : Nat} :
    ∀ l : List Nat, (∀ Q ∈ l, ∃ q, q < c ∧ Q = 2 ^ q) → ∀ t,
      tFold (2 ^ c ^^^ x) l t = tFold x l t := by
  intro l
  induction l with
  | nil => intro _ t; rfl
  | cons Q l ih =>
    intro hmem t
    rcases hmem Q (by simp) with ⟨q, hqc, rfl⟩
    show tFold (2 ^ c ^^^ x) l
        (if (2 ^ c ^^^ x) &&& 2 ^ q ≠ 0 then t ^^^ (2 ^ q - 1) else t) = _
    rw [xor_two_pow_and_two_pow (by omega)]
    exact ih (fun P hP => hmem P (by simp [hP])) _

theorem tCorrection_xor_high {b c : Nat} (hbc : b ≤ c) (x : Nat) :
    tCorrection b (2 ^ c ^^^ x) = tCorrection b x := by
  rw [tCorrection_eq_tFold, tCorrection_eq_tFold]
  apply tFold_xor_high
  intro Q hQ
  rcases mem_qListDesc hQ with ⟨q, _, hq2, rfl⟩
  exact ⟨q, by omega, rfl⟩

theorem rotate1_xor_high {b c : Nat} (hbc : b ≤ c) (x : Nat) :
    rotate1 b (2 ^ c ^^^ x) = 2 ^ c ^^^ rotate1 b x := by
  apply rotFold_xor_high
  intro Q hQ
  rcases mem_qListDesc hQ with ⟨q, _, hq2, rfl⟩
  exact ⟨q, by omega, rfl⟩

theorem lt_two_pow_of_top_clear {b x : Nat} (hx : x < 2 ^ (b + 1))
    (h : x.testBit b = false) : x < 2 ^ b := by
  apply Nat.lt_pow_two_of_testBit
  intro i hi
  rcases eq_or_ne i b with rfl | hne
  · exact h
  · exact Nat.testBit_lt_two_pow
      (Nat.lt_of_lt_of_le hx (Nat.pow_le_pow_right (by norm_num) (by omega)))

theorem xor_top_lt {b x : Nat} (hx : x < 2 ^ (b + 1)) (h : x.testBit b = true) :
    x ^^^ 2 ^ b < 2 ^ b := by
  apply Nat.lt_pow_two_of_testBit
  intro i hi
  rcases eq_or_ne i b with rfl | hne
  · rw [Nat.testBit_xor, h, Nat.testBit_two_pow_self]
    rfl
  · rw [Nat.testBit_xor, Nat.testBit_two_pow_of_ne (by omega), Bool.xor_false]
    exact Nat.testBit_lt_two_pow
      (Nat.lt_of_lt_of_le hx (Nat.pow_le_pow_right (by norm_num) (by omega)))

/-- For a single dimension, the rotation cascade followed by the Gray
correction restores the input: the correction is computed from the rotated
value, but each rotation decision is visible in the final bits. -/
theorem rotate1_tCorrection : ∀ b x, x < 2 ^ b →
    rotate1 b x ^^^ tCorrection b (rotate1 b x) = x := by
  intro b
  induction b with
  | zero =>
    intro x hx
    have hx0 : x = 0 := by omega
    subst hx0
    rfl
  | succ b ih =>
    intro x hx
    rcases Nat.eq_zero_or_pos b with rfl | hb
    · rw [rotate1_le_one (by omega), tCorrection_le_one (by omega), Nat.xor_zero]
    · by_cases hbit : x.testBit b
      · set x' := x ^^^ 2 ^ b with hxdef
        have hx'lt : x' < 2 ^ b := xor_top_lt hx hbit
        have hxeq : x = 2 ^ b ^^^ x' := by
          rw [hxdef, Nat.xor_comm x (2 ^ b), ← Nat.xor_assoc, Nat.xor_self, Nat.zero_xor]
        have hcond : x &&& 2 ^ b ≠ 0 := (and_two_pow_ne_zero_iff x b).mpr hbit
        have hmask : (0 : Nat) < 2 ^ b := Nat.pos_pow_of_pos _ (by norm_num)
        have hx'' : x' ^^^ (2 ^ b - 1) < 2 ^ b :=
          Nat.xor_lt_two_pow hx'lt (by omega)
        set y := rotate1 b (x' ^^^ (2 ^ b - 1)) with hy
        have hylt : y < 2 ^ b := rotate1_lt hx''
        have hstep : x ^^^ (2 ^ b - 1) = 2 ^ b ^^^ (x' ^^^ (2 ^ b - 1)) := by
          rw [hxeq, Nat.xor_assoc]
        have hrot : rotate1 (b + 1) x = 2 ^ b ^^^ y := by
          rw [rotate1_succ hb, if_pos hcond, hstep, rotate1_xor_high (Nat.le_refl b), hy]
        have hyb : y &&& 2 ^ b = 0 := by
          rw [and_two_pow_eq, Nat.testBit_lt_two_pow hylt]
          simp
        have hcond2 : (2 ^ b ^^^ y) &&& 2 ^ b ≠ 0 := by
          rw [Nat.and_xor_distrib_right, Nat.and_self, hyb, Nat.xor_zero]
          omega
        have htc : tCorrection (b + 1) (2 ^ b ^^^ y) = (2 ^ b - 1) ^^^ tCorrection b y := by
          rw [tCorrection_succ hb, if_pos hcond2, tCorrection_xor_high (Nat.le_refl b)]
        rw [hrot, htc]
        have hIH := ih (x' ^^^ (2 ^ b - 1)) hx''
        rw [← hy] at hIH
        calc (2 ^ b ^^^ y) ^^^ ((2 ^ b - 1) ^^^ tCorrection b y)
            = 2 ^ b ^^^ ((2 ^ b - 1) ^^^ (y ^^^ tCorrection b y)) := by
              rw [Nat.xor_assoc, xor_left_comm y (2 ^ b - 1) (tCorrection b y)]
          _ = 2 ^ b ^^^ ((2 ^ b - 1) ^^^ (x' ^^^ (2 ^ b - 1))) := by rw [hIH]
          _ = 2 ^ b ^^^ x' := by rw [xor_cancel_l]
          _ = x := hxeq.symm
      · have hbit' : x.testBit b = false := by simpa using hbit
        have hxlt : x < 2 ^ b := lt_two_pow_of_top_clear hx hbit'
        have hcond : ¬(x &&& 2 ^ b ≠ 0) := by
          rw [and_two_pow_eq, hbit']
          simp
        have hrlt : rotate1 b x < 2 ^ b := rotate1_lt hxlt
        have hrot : rotate1 (b + 1) x = rotate1 b x := by
          rw [rotate1_succ hb, if_neg hcond]
        have htc : tCorrection (b + 1) (rotate1 b x) = tCorrection b (rotate1 b x) := by
          rw [tCorrection_succ hb, if_neg (by
            rw [and_two_pow_eq, Nat.testBit_lt_two_pow hrlt]
            simp), Nat.zero_xor]
        rw [hrot, htc]
        exact ih x hxlt

/-- `AxestoTranspose` is the identity in one dimension. -/
theorem axesToTranspose_n1 {b x : Nat} (hx : x < 2 ^ b) :
    AxestoTranspose [x] b 1 = [x] := by
  unfold AxestoTranspose
  have hpairs : axesPairs b 1 = (qListDesc b).flatMap fun Q => [(Q, (0 : Nat))] := rfl
  rw [hpairs, foldl_exchInv_singleton]
  show grayEncode b 1 [rotate1 b x] = [x]
  rw [grayEncode_eq]
  show [rotate1 b x ^^^ tCorrection b ([rotate1 b x].getD 0 0)] = [x]
  rw [show [rotate1 b x].getD 0 0 = rotate1 b x from rfl, rotate1_tCorrection b x hx]

/-- `TransposetoAxes` is the identity in one dimension. -/
theorem transposeToAxes_n1 {b x : Nat} (hx : x < 2 ^ b) :
    TransposetoAxes [x] b 1 = [x] := by
  have h := roundtrip_axes (b := b) (n := 1) (X := [x]) (by omega) rfl
    (by intro y hy; simp at hy; omega)
  rw [axesToTranspose_n1 hx] at h
  exact h

/-! ### Bit interleaving: fold characterizations -/

theorem foldl_fst_of_preserve {α γ β : Type} (step : γ × β → α → γ × β)
    (h : ∀ s a, (step s a).1 = s.1) :
    ∀ (l : List α) (s : γ × β), (l.foldl step s).1 = s.1 := by
  intro l
  induction l with
  | nil => intro s; rfl
  | cons a l ih =>
    intro s
    rw [List.foldl_cons, ih, h]

theorem foldl_snd_length {α γ : Type} (step : γ × List Nat → α → γ × List Nat)
    (h : ∀ s a, (step s a).2.length = s.2.length) :
    ∀ (l : List α) (s : γ × List Nat), (l.foldl step s).2.length = s.2.length := by
  intro l
  induction l with
  | nil => intro s; rfl
  | cons a l ih =>
    intro s
    rw [List.foldl_cons, ih, h]

theorem interInner_fst (k : Nat) (s : List Nat × List Nat) (j : Nat) :
    (interInner k s j).1 = s.1 := rfl

theorem interOuter_fst (n : Nat) (s : List Nat × List Nat) (k : Nat) :
    (interOuter n s k).1 = s.1 :=
  foldl_fst_of_preserve (interInner k) (interInner_fst k) (List.range n) s

theorem interInner_snd_length (k : Nat) (s : List Nat × List Nat) (j : Nat) :
    (interInner k s j).2.length = s.2.length :=
  List.length_set _ _ _

theorem interOuter_snd_length (n : Nat) (s : List Nat × List Nat) (k : Nat) :
    (interOuter n s k).2.length = s.2.length :=
  foldl_snd_length (interInner k) (interInner_snd_length k) (List.range n) s

/-- `interleaveBits` never writes to the coordinate array. -/
theorem interleaveBitsS_fst (X : List Nat) (b n : Nat) :
    (interleaveBitsS X b n).1 = X := by
  unfold interleaveBitsS
  exact foldl_fst_of_preserve (interOuter n) (interOuter_fst n)
    (List.range b) (X, List.replicate n 0)

/-- The per-dimension working value of `interleaveBits`: bit `k` of the
coordinate lands at bit `3k` (source loop: shift by `i = 2k` of a bit
already at position `k`). -/
def spread (b x : Nat) : Nat :=
  (List.range b).foldl (fun c k => c ||| ((x &&& (1 <<< k)) <<< (2 * k))) 0

theorem getD_replicate_zero (n j : Nat) : (List.replicate n 0).getD j 0 = 0 := by
  rw [List.getD_eq_getElem?_getD]
  by_cases h : j < n
  · rw [List.getElem?_eq_getElem (by simpa using h)]
    simp
  · rw [List.getElem?_eq_none (by simpa using h)]
    rfl

/-- One inner pass of the interleave loop ORs the `k`-th spread term into
each of the first `m` slots. -/
theorem interleave_inner_getD (Y : List Nat) (k : Nat) :
    ∀ (m : Nat) (cd : List Nat) (i : Nat),
      ((List.range m).foldl (interInner k) (Y, cd)).2.getD i 0 =
      if i < m ∧ i < cd.length then
        cd.getD i 0 ||| ((Y.getD i 0 &&& (1 <<< k)) <<< (2 * k))
      else cd.getD i 0 := by
  intro m
  induction m with
  | zero =>
    intro cd i
    rw [if_neg (by omega)]
    rfl
  | succ m ih =>
    intro cd i
    rw [List.range_succ, List.foldl_append]
    set F := (List.range m).foldl (interInner k) (Y, cd) with hF
    have hFfst : F.1 = Y :=
      foldl_fst_of_preserve (interInner k) (interInner_fst k) _ _
    have hFlen : F.2.length = cd.length :=
      foldl_snd_length (interInner k) (interInner_snd_length k) _ _
    show (interInner k F m).2.getD i 0 = _
    unfold interInner
    rw [hFfst]
    have hFm : F.2.getD m 0 = cd.getD m 0 := by
      rw [hF, ih cd m, if_neg (by omega)]
    rcases eq_or_ne i m with rfl | hne
    · by_cases hlen : i < cd.length
      · rw [getD_set_self (by omega) _ _, hFm, if_pos (by omega)]
      · show (F.2.set i _).getD i 0 = _
        rw [List.set_eq_of_length_le (by omega), hF, ih cd i, if_neg (by omega),
          if_neg (by omega)]
    · show (F.2.set m _).getD i 0 = _
      rw [getD_set_ne (Ne.symm hne), hF, ih cd i]
      rcases Nat.lt_trichotomy i m with h | h | h
      · by_cases hlen : i < cd.length
        · rw [if_pos (by omega), if_pos (by omega)]
        · rw [if_neg (by omega), if_neg (by omega)]
      · exact absurd h hne
      · rw [if_neg (by omega), if_neg (by omega)]

/-- After the outer interleave loop, slot `j` holds the spread-so-far of
coordinate `j`. -/
theorem interleave_outer_getD (X : List Nat) (n : Nat) {j : Nat} (hj : j < n) :
    ∀ m,
      ((List.range m).foldl (interOuter n) (X, List.replicate n 0)).2.getD j 0 =
      (List.range m).foldl (fun c k => c ||| ((X.getD j 0 &&& (1 <<< k)) <<< (2 * k))) 0 := by
  intro m
  induction m with
  | zero =>
    exact getD_replicate_zero n j
  | succ m ih =>
    rw [List.range_succ, List.foldl_append, List.foldl_append]
    set F := (List.range m).foldl (interOuter n) (X, List.replicate n 0) with hF
    have hFfst : F.1 = X :=
      foldl_fst_of_preserve (interOuter n) (interOuter_fst n) _ _
    have hFlen : F.2.length = n := by
      have h := foldl_snd_length (interOuter n) (interOuter_snd_length n)
        (List.range m) (X, List.replicate n 0)
      rw [← hF] at h
      rw [h]
      simp
    show (interOuter n F m).2.getD j 0 = _
    unfold interOuter
    have hpair : F = (F.1, F.2) := rfl
    rw [hpair, interleave_inner_getD F.1 m n F.2 j, if_pos (by omega), hFfst, hF, ih]
    rfl

theorem bool_eq_of_iff {a b : Bool} (h : a = true ↔ b = true) : a = b := by
  cases a <;> cases b <;> simp_all

/-- A bit of an OR-accumulating fold is the OR of the bits. -/
theorem foldl_or_testBit {α : Type} (f : α → Nat) :
    ∀ (l : List α) (a : Nat) (k : Nat),
      ((l.foldl (fun acc x => acc ||| f x) a).testBit k) =
        (a.testBit k || l.any (fun x => (f x).testBit k)) := by
  intro l
  induction l with
  | nil => intro a k; simp
  | cons x l ih =>
    intro a k
    rw [List.foldl_cons, ih, Nat.testBit_or, List.any_cons, Bool.or_assoc]

/-- Bit `p` of `spread b x` is bit `p/3` of `x`, present only at positions
that are multiples of 3. -/
theorem spread_testBit_iff {b x p : Nat} :
    (spread b x).testBit p = true ↔
      p % 3 = 0 ∧ p / 3 < b ∧ x.testBit (p / 3) = true := by
  unfold spread
  rw [foldl_or_testBit (fun k => (x &&& (1 <<< k)) <<< (2 * k)) (List.range b) 0 p,
    Nat.zero_testBit, Bool.false_or, List.any_eq_true]
  constructor
  · rintro ⟨k, hk, hbit⟩
    have hk' : k < b := List.mem_range.mp hk
    rw [Nat.testBit_shiftLeft, Nat.one_shiftLeft, Nat.testBit_and,
      Nat.testBit_two_pow] at hbit
    simp only [Bool.and_eq_true, decide_eq_true_eq] at hbit
    obtain ⟨h1, h2, h3⟩ := hbit
    have hp : p = 3 * k := by omega
    refine ⟨by omega, by omega, ?_⟩
    rw [show p / 3 = p - 2 * k by omega]
    exact h2
  · rintro ⟨h1, h2, h3⟩
    refine ⟨p / 3, List.mem_range.mpr h2, ?_⟩
    rw [Nat.testBit_shiftLeft, Nat.one_shiftLeft, Nat.testBit_and, Nat.testBit_two_pow]
    simp only [Bool.and_eq_true, decide_eq_true_eq]
    refine ⟨by omega, ?_, by omega⟩
    rw [show p - 2 * (p / 3) = p / 3 by omega]
    exact h3

theorem foldl_congr_mem {α β : Type} {f g : β → α → β} :
    ∀ l : List α, (∀ b a, a ∈ l → f b a = g b a) → ∀ a0, l.foldl f a0 = l.foldl g a0 := by
  intro l
  induction l with
  | nil => intro _ a0; rfl
  | cons x l ih =>
    intro h a0
    rw [List.foldl_cons, List.foldl_cons, h a0 x (by simp)]
    exact ih (fun b a ha => h b a (by simp [ha])) _

/-- The returned scalar, written with the per-dimension spreads. -/
theorem interleaveBits_eq_orFold {n : Nat} (hn : 1 ≤ n) (X : List Nat) (b : Nat) :
    interleaveBits X b n =
      (List.range' 1 (n - 1)).foldl
        (fun res j => res ||| (spread b (X.getD j 0) <<< (n - j - 1)))
        (spread b (X.getD 0 0) <<< (n - 1)) := by
  unfold interleaveBits interleaveBitsS
  set F := (List.range b).foldl (interOuter n) (X, List.replicate n 0) with hF
  have hchar : ∀ j, j < n → F.2.getD j 0 = spread b (X.getD j 0) := by
    intro j hj
    rw [hF]
    exact interleave_outer_getD X n hj b
  show (List.range' 1 (n - 1)).foldl
      (fun res j => res ||| (F.2.getD j 0 <<< (n - j - 1)))
      (F.2.getD 0 0 <<< (n - 1)) = _
  rw [hchar 0 (by omega)]
  apply foldl_congr_mem
  intro a j hj
  rcases List.mem_range'.mp hj with ⟨i, hi, rfl⟩
  rw [hchar (1 + 1 * i) (by omega)]

/-- General bit characterization of the interleaved code: bit `p` is set iff
some dimension `j` contributed its bit `k` at position `3k + (n-1-j)`. -/
theorem interleaveBits_testBit_iff {n : Nat} (hn : 1 ≤ n) (b : Nat) (X : List Nat) (p : Nat) :
    (interleaveBits X b n).testBit p = true ↔
      ∃ j, j < n ∧ ∃ k, k < b ∧ p = 3 * k + (n - 1 - j) ∧
        (X.getD j 0).testBit k = true := by
  rw [interleaveBits_eq_orFold hn,
    foldl_or_testBit (fun j => spread b (X.getD j 0) <<< (n - j - 1))]
  constructor
  · intro h
    rcases Bool.or_eq_true_iff.mp h with h0 | hany
    · rw [Nat.testBit_shiftLeft] at h0
      simp only [Bool.and_eq_true, decide_eq_true_eq] at h0
      obtain ⟨hge, hsp⟩ := h0
      rcases spread_testBit_iff.mp hsp with ⟨hm, hd, hbit⟩
      exact ⟨0, by omega, (p - (n - 1)) / 3, hd, by omega, hbit⟩
    · rcases List.any_eq_true.mp hany with ⟨j, hjmem, hterm⟩
      rcases List.mem_range'.mp hjmem with ⟨i, hi, rfl⟩
      rw [Nat.testBit_shiftLeft] at hterm
      simp only [Bool.and_eq_true, decide_eq_true_eq] at hterm
      obtain ⟨hge, hsp⟩ := hterm
      rcases spread_testBit_iff.mp hsp with ⟨hm, hd, hbit⟩
      exact ⟨1 + 1 * i, by omega, (p - (n - (1 + 1 * i) - 1)) / 3, hd, by omega, hbit⟩
  · rintro ⟨j, hj, k, hk, hp, hbit⟩
    rcases Nat.eq_zero_or_pos j with rfl | hjpos
    · apply Bool.or_eq_true_iff.mpr
      left
      rw [Nat.testBit_shiftLeft]
      simp only [Bool.and_eq_true, decide_eq_true_eq]
      refine ⟨by omega, spread_testBit_iff.mpr ⟨by omega, ?_, ?_⟩⟩
      · rw [show (p - (n - 1)) / 3 = k by omega]
        exact hk
      · rw [show (p - (n - 1)) / 3 = k by omega]
        exact hbit
    · apply Bool.or_eq_true_iff.mpr
      right
      apply List.any_eq_true.mpr
      refine ⟨j, List.mem_range'.mpr ⟨j - 1, by omega, by omega⟩, ?_⟩
      rw [Nat.testBit_shiftLeft]
      simp only [Bool.and_eq_true, decide_eq_true_eq]
      refine ⟨by omega, spread_testBit_iff.mpr ⟨by omega, ?_, ?_⟩⟩
      · rw [show (p - (n - j - 1)) / 3 = k by omega]
        exact hk
      · rw [show (p - (n - j - 1)) / 3 = k by omega]
        exact hbit

/-- For `n ≤ 3` the contribution at each bit position is unique, giving a
deterministic read-back formula. -/
theorem interleaveBits_testBit_n3 {n : Nat} (hn : 1 ≤ n) (hn3 : n ≤ 3)
    (b : Nat) (X : List Nat) (p : Nat) :
    (interleaveBits X b n).testBit p = true ↔
      (p % 3 ≤ n - 1 ∧ p / 3 < b ∧
        (X.getD (n - 1 - p % 3) 0).testBit (p / 3) = true) := by
  rw [interleaveBits_testBit_iff hn]
  constructor
  · rintro ⟨j, hj, k, hk, hp, hbit⟩
    have hpm : p % 3 = n - 1 - j := by omega
    have hpd : p / 3 = k := by omega
    have hj' : n - 1 - p % 3 = j := by omega
    refine ⟨by omega, by rw [hpd]; exact hk, ?_⟩
    rw [hj', hpd]
    exact hbit
  · rintro ⟨h1, h2, h3⟩
    exact ⟨n - 1 - p % 3, by omega, p / 3, h2, by omega, h3⟩

/-! ### Bit uninterleaving: fold characterizations -/

theorem foldl_length_preserve {α : Type} (step : List Nat → α → List Nat)
    (h : ∀ Y a, (step Y a).length = Y.length) :
    ∀ (l : List α) (Y : List Nat), (l.foldl step Y).length = Y.length := by
  intro l
  induction l with
  | nil => intro Y; rfl
  | cons a l ih =>
    intro Y
    rw [List.foldl_cons, ih, h]

/-- The zeroing loop of `uninterleaveBits` clears the first `m` slots. -/
theorem zero_fold_getD :
    ∀ (m : Nat) (Y : List Nat) (i : Nat),
      ((List.range m).foldl (fun Y i => Y.set i 0) Y).getD i 0 =
        if i < m ∧ i < Y.length then 0 else Y.getD i 0 := by
  intro m
  induction m with
  | zero =>
    intro Y i
    rw [if_neg (by omega)]
    rfl
  | succ m ih =>
    intro Y i
    rw [List.range_succ, List.foldl_append]
    set F := (List.range m).foldl (fun Y i => Y.set i 0) Y with hF
    have hFlen : F.length = Y.length :=
      foldl_length_preserve _ (fun Y a => List.length_set _ _ _) _ _
    show (F.set m 0).getD i 0 = _
    rcases eq_or_ne i m with rfl | hne
    · by_cases hlen : i < Y.length
      · rw [getD_set_self (by omega), if_pos (by omega)]
      · rw [List.set_eq_of_length_le (by omega), hF, ih Y i, if_neg (by omega),
          if_neg (by omega)]
    · rw [getD_set_ne (Ne.symm hne), hF, ih Y i]
      rcases Nat.lt_trichotomy i m with h | h | h
      · by_cases hlen : i < Y.length
        · rw [if_pos (by omega), if_pos (by omega)]
        · rw [if_neg (by omega), if_neg (by omega)]
      · exact absurd h hne
      · rw [if_neg (by omega), if_neg (by omega)]

theorem uninterInner_length (n code i : Nat) (Y : List Nat) (j : Nat) :
    (uninterInner n code i Y j).length = Y.length := List.length_set _ _ _

/-- One pass of the inner uninterleave loop ORs, into each slot `s` in the
touched range, the selector bit for `j = n - 1 - s`. -/
theorem uninter_inner_getD {n : Nat} (code i0 : Nat) (hn : 1 ≤ n) :
    ∀ (m : Nat) (Y : List Nat), m ≤ n → Y.length = n → ∀ s,
      ((List.range m).foldl (uninterInner n code i0) Y).getD s 0 =
        if n - m ≤ s ∧ s ≤ n - 1 then
          Y.getD s 0 |||
            ((code &&& (1 <<< (3 * i0 + (n - 1 - s)))) >>> (2 * i0 + (n - 1 - s)))
        else Y.getD s 0 := by
  intro m
  induction m with
  | zero =>
    intro Y _ hlen s
    rw [if_neg (by omega)]
    rfl
  | succ m ih =>
    intro Y hm hlen s
    rw [List.range_succ, List.foldl_append]
    set F := (List.range m).foldl (uninterInner n code i0) Y with hF
    have hFlen : F.length = n := by
      rw [hF, foldl_length_preserve (uninterInner n code i0)
        (uninterInner_length n code i0), hlen]
    show (uninterInner n code i0 F m).getD s 0 = _
    unfold uninterInner
    have hFm : F.getD (n - m - 1) 0 = Y.getD (n - m - 1) 0 := by
      rw [hF, ih Y (by omega) hlen (n - m - 1), if_neg (by omega)]
    rcases eq_or_ne s (n - m - 1) with rfl | hne
    · rw [getD_set_self (by omega), hFm, if_pos (by omega),
        show n - 1 - (n - m - 1) = m by omega]
    · rw [getD_set_ne (Ne.symm hne), hF, ih Y (by omega) hlen s]
      by_cases hcond : n - m ≤ s ∧ s ≤ n - 1
      · rw [if_pos hcond, if_pos (by omega)]
      · rw [if_neg hcond, if_neg (by omega)]

/-- The outer uninterleave loop accumulates, per slot, an OR-fold over the
bit-plane indices. -/
theorem uninter_outer_getD {n : Nat} (code : Nat) (hn : 1 ≤ n) :
    ∀ (mB : Nat) (Y : List Nat), Y.length = n → ∀ s, s < n →
      ((List.range mB).foldl
        (fun Y i => (List.range n).foldl (uninterInner n code i) Y) Y).getD s 0 =
      (List.range mB).foldl
        (fun a i => a |||
          ((code &&& (1 <<< (3 * i + (n - 1 - s)))) >>> (2 * i + (n - 1 - s))))
        (Y.getD s 0) := by
  intro mB
  induction mB with
  | zero =>
    intro Y _ s _
    rfl
  | succ mB ih =>
    intro Y hlen s hs
    rw [List.range_succ, List.foldl_append, List.foldl_append]
    set F := (List.range mB).foldl
      (fun Y i => (List.range n).foldl (uninterInner n code i) Y) Y with hF
    have hstep : ∀ (Z : List Nat) (i : Nat),
        ((List.range n).foldl (uninterInner n code i) Z).length = Z.length :=
      fun Z i => foldl_length_preserve (uninterInner n code i)
        (uninterInner_length n code i) _ Z
    have hFlen : F.length = n := by
      rw [hF, foldl_length_preserve _ hstep, hlen]
    show ((List.range n).foldl (uninterInner n code mB) F).getD s 0 = _
    rw [uninter_inner_getD code mB hn n F (by omega) hFlen s, if_pos (by omega),
      hF, ih Y hlen s hs]
    rfl

theorem uninterleaveBits_length {b n code : Nat} {Y : List Nat} (hlen : Y.length = n) :
    (uninterleaveBits Y b n code).length = n := by
  unfold uninterleaveBits
  show ((List.range (b + 1)).foldl
      (fun Y i => (List.range n).foldl (uninterInner n code i) Y)
      ((List.range n).foldl (fun Y i => Y.set i 0) Y)).length = n
  have hstep : ∀ (Z : List Nat) (i : Nat),
      ((List.range n).foldl (uninterInner n code i) Z).length = Z.length :=
    fun Z i => foldl_length_preserve (uninterInner n code i)
      (uninterInner_length n code i) _ Z
  rw [foldl_length_preserve _ hstep,
    foldl_length_preserve (fun Y i => Y.set i 0) (fun Y a => List.length_set _ _ _), hlen]

/-- Entry `s` of the uninterleave result, as an OR-fold over bit planes,
independently of the initial vector contents. -/
theorem uninterleaveBits_getD {b n code : Nat} (hn : 1 ≤ n) {Y : List Nat}
    (hlen : Y.length = n) {s : Nat} (hs : s < n) :
    (uninterleaveBits Y b n code).getD s 0 =
      (List.range (b + 1)).foldl
        (fun a i => a |||
          ((code &&& (1 <<< (3 * i + (n - 1 - s)))) >>> (2 * i + (n - 1 - s))))
        0 := by
  unfold uninterleaveBits
  show ((List.range (b + 1)).foldl
      (fun Y i => (List.range n).foldl (uninterInner n code i) Y)
      ((List.range n).foldl (fun Y i => Y.set i 0) Y)).getD s 0 = _
  set Z := (List.range n).foldl (fun Y i => Y.set i 0) Y with hZ
  have hZlen : Z.length = n := by
    rw [hZ, foldl_length_preserve _ (fun Y a => List.length_set _ _ _), hlen]
  have hZs : Z.getD s 0 = 0 := by
    rw [hZ, zero_fold_getD n Y s, if_pos (by omega)]
  rw [uninter_outer_getD code hn (b + 1) Z hZlen s hs, hZs]

/-- Bit `k` of entry `s`: the selector bit `3k + (n-1-s)` of the code,
provided `k ≤ b`. -/
theorem uninterleaveBits_getD_testBit {b n code : Nat} (hn : 1 ≤ n) {Y : List Nat}
    (hlen : Y.length = n) {s : Nat} (hs : s < n) (k : Nat) :
    ((uninterleaveBits Y b n code).getD s 0).testBit k = true ↔
      k ≤ b ∧ code.testBit (3 * k + (n - 1 - s)) = true := by
  rw [uninterleaveBits_getD hn hlen hs,
    foldl_or_testBit
      (fun i => (code &&& (1 <<< (3 * i + (n - 1 - s)))) >>> (2 * i + (n - 1 - s))),
    Nat.zero_testBit, Bool.false_or, List.any_eq_true]
  constructor
  · rintro ⟨i, hi, hbit⟩
    have hi' : i < b + 1 := List.mem_range.mp hi
    rw [Nat.testBit_shiftRight, Nat.one_shiftLeft, Nat.testBit_and,
      Nat.testBit_two_pow] at hbit
    simp only [Bool.and_eq_true, decide_eq_true_eq] at hbit
    obtain ⟨h1, h2⟩ := hbit
    have hik : i = k := by omega
    subst hik
    exact ⟨by omega, by
      rw [show 3 * i + (n - 1 - s) = 2 * i + (n - 1 - s) + i by omega]
      exact h1⟩
  · rintro ⟨h1, h2⟩
    refine ⟨k, List.mem_range.mpr (by omega), ?_⟩
    rw [Nat.testBit_shiftRight, Nat.one_shiftLeft, Nat.testBit_and,
      Nat.testBit_two_pow]
    simp only [Bool.and_eq_true, decide_eq_true_eq]
    exact ⟨by
      rw [show 2 * k + (n - 1 - s) + k = 3 * k + (n - 1 - s) by omega]
      exact h2, by omega⟩

/-- For `n ≤ 3`, uninterleaving the interleaved code restores the vector:
the `3i + j` selector layout of `uninterleaveBits` exactly inverts the
stride-3 spread of `interleaveBits` as long as the group offsets
`n - 1 - j` stay below 3. -/
theorem uninter_inter_helper {n b : Nat} (hn : 1 ≤ n) (hn3 : n ≤ 3) {X : List Nat}
    (hlen : X.length = n) (hX : ∀ x ∈ X, x < 2 ^ b) :
    uninterleaveBits X b n (interleaveBits X b n) = X := by
  apply ext_getD
  · rw [uninterleaveBits_length hlen, hlen]
  · intro s hs
    have hs' : s < n := by rwa [uninterleaveBits_length hlen] at hs
    apply Nat.eq_of_testBit_eq
    intro k
    apply bool_eq_of_iff
    rw [uninterleaveBits_getD_testBit hn hlen hs' k]
    constructor
    · rintro ⟨hkb, hcode⟩
      rcases (interleaveBits_testBit_n3 hn hn3 b X _).mp hcode with ⟨h1, h2, h3⟩
      have hpm : (3 * k + (n - 1 - s)) % 3 = n - 1 - s := by omega
      have hpd : (3 * k + (n - 1 - s)) / 3 = k := by omega
      rw [hpm, hpd, show n - 1 - (n - 1 - s) = s by omega] at h3
      exact h3
    · intro hbit
      have hklt : k < b := by
        by_contra hc
        have hfalse : (X.getD s 0).testBit k = false :=
          Nat.testBit_lt_two_pow (Nat.lt_of_lt_of_le (getD_lt_two_pow hX s)
            (Nat.pow_le_pow_right (by norm_num) (by omega)))
        rw [hfalse] at hbit
        exact absurd hbit (by simp)
      refine ⟨by omega, (interleaveBits_testBit_n3 hn hn3 b X _).mpr ?_⟩
      have hpm : (3 * k + (n - 1 - s)) % 3 = n - 1 - s := by omega
      have hpd : (3 * k + (n - 1 - s)) / 3 = k := by omega
      rw [hpm, hpd, show n - 1 - (n - 1 - s) = s by omega]
      exact ⟨by omega, hklt, hbit⟩

/-- The uninterleave output is determined by `(b, n, code)` alone. -/
theorem uninterleaveBits_init_irrel {b n code : Nat} (hn : 1 ≤ n) {Y1 Y2 : List Nat}
    (h1 : Y1.length = n) (h2 : Y2.length = n) :
    uninterleaveBits Y1 b n code = uninterleaveBits Y2 b n code := by
  apply ext_getD
  · rw [uninterleaveBits_length h1, uninterleaveBits_length h2]
  · intro s hs
    have hs' : s < n := by rwa [uninterleaveBits_length h1] at hs
    rw [uninterleaveBits_getD hn h1 hs', uninterleaveBits_getD hn h2 hs']

/-! ### The claims -/

/-- Claim C1: for every `n ≥ 1`, `b ≥ 1`, and every coordinate vector of
length `n` with all entries in `[0, 2^b - 1]`, applying `AxestoTranspose`
and then `TransposetoAxes` with the same `b` and `n` yields the original
vector. -/
theorem claim_C1_roundtrip (n b : Nat) (X : List Nat) (hn : 1 ≤ n) (hb : 1 ≤ b)
    (hlen : X.length = n) (hX : ∀ x ∈ X, x < 2 ^ b) :
    TransposetoAxes (AxestoTranspose X b n) b n = X :=
  roundtrip_axes hn hlen hX

/-- Witness for C1 at `b = 5`, `n = 3`, `v = (5, 10, 20)`. -/
theorem claim_C1_witness :
    TransposetoAxes (AxestoTranspose [5, 10, 20] 5 3) 5 3 = [5, 10, 20] :=
  claim_C1_roundtrip 3 5 [5, 10, 20] (by decide) (by decide) rfl (by decide)

/-- Claim C2, counterexample: at `n = 4`, `b = 1` (so `n*b = 4` well within
any scalar width) the round trip already fails on `(1, 0, 0, 0)`: code bit 3
is doubly extracted, producing `(1, 0, 0, 2)`. -/
theorem claim_C2_counterexample :
    uninterleaveBits [1, 0, 0, 0] 1 4 (interleaveBits [1, 0, 0, 0] 1 4) ≠
      [1, 0, 0, 0] := by
  decide

/-- Claim C2 as amended: the interleave/uninterleave round trip holds for
every `b ≥ 1` and every `n ≤ 3` (the dimensions the stride-3 selector
arithmetic actually supports), on transpose vectors of `b`-bit entries. -/
theorem claim_C2_roundtrip_n_le_three (n b : Nat) (X : List Nat) (hn : 1 ≤ n)
    (hn3 : n ≤ 3) (hb : 1 ≤ b) (hlen : X.length = n) (hX : ∀ x ∈ X, x < 2 ^ b) :
    uninterleaveBits X b n (interleaveBits X b n) = X :=
  uninter_inter_helper hn hn3 hlen hX

/-- Witness for the amended C2 at `b = 5`, `n = 3`, `v = (10, 14, 27)`. -/
theorem claim_C2_witness :
    uninterleaveBits [10, 14, 27] 5 3 (interleaveBits [10, 14, 27] 5 3) =
      [10, 14, 27] :=
  claim_C2_roundtrip_n_le_three 3 5 [10, 14, 27] (by decide) (by decide) (by decide)
    rfl (by decide)

/-- Claim C3, counterexample: at `n = 1`, `b = 2`, `v = (2)`, position
`k = 1`, the claimed formula (bit `k div n` of coordinate
`(n-1) - (k mod n)`) predicts bit 1 of the code equals bit 1 of the
coordinate, but `interleaveBits` returns 8, whose bit 1 is clear. -/
theorem claim_C3_counterexample :
    ¬ ((interleaveBits [2] 2 1).testBit 1 =
        ([2].getD ((1 - 1) - 1 % 1) 0).testBit (1 / 1)) := by
  decide

/-- Claim C3 as amended: for `n = 3` (the dimension the stride-3 layout
supports), output bit `k` of `interleaveBits` is bit `k div 3` of source
coordinate `(3-1) - (k mod 3)`; dimension 0 occupies the most significant
bit of each group of three. -/
theorem claim_C3_interleave_bit_layout (b : Nat) (X : List Nat) (hb : 1 ≤ b)
    (hlen : X.length = 3) (hX : ∀ x ∈ X, x < 2 ^ b) :
    ∀ k, k < 3 * b →
      (interleaveBits X b 3).testBit k =
        (X.getD (3 - 1 - k % 3) 0).testBit (k / 3) := by
  intro k hk
  apply bool_eq_of_iff
  rw [interleaveBits_testBit_n3 (by omega) (by omega) b X k]
  constructor
  · rintro ⟨h1, h2, h3⟩
    exact h3
  · intro h
    exact ⟨by omega, by omega, h⟩

/-- Witness for the amended C3 at `b = 5`, transpose vector `(10, 14, 27)`,
bit 0. -/
theorem claim_C3_witness :
    (interleaveBits [10, 14, 27] 5 3).testBit 0 =
      ([10, 14, 27].getD (3 - 1 - 0 % 3) 0).testBit (0 / 3) :=
  claim_C3_interleave_bit_layout 5 [10, 14, 27] (by decide) rfl (by decide) 0
    (by decide)

/-- Claim C4, counterexample: the 15 bits of the code produced from axes
`(5, 10, 20)` (grouped `X0 X1 X2` per level, most significant level first)
do not read `111 110 100 001 101`. -/
theorem claim_C4_counterexample :
    ¬ ((List.range 15).map
        (fun k => (interleaveBits (AxestoTranspose [5, 10, 20] 5 3) 5 3).testBit (14 - k)) =
      [true, true, true, true, true, false, true, false, false,
        false, false, true, true, false, true]) := by
  decide

/-- Claim C4 as amended: for `b = 5`, `n = 3`, axes `(5, 10, 20)`, the
bit-interleaved code of the transpose is 7865, whose 15 bits (groups
`X0 X1 X2` per level, most significant level first) read
`001 111 010 111 001`. -/
theorem claim_C4_known_example :
    interleaveBits (AxestoTranspose [5, 10, 20] 5 3) 5 3 = 7865 ∧
    (List.range 15).map
        (fun k => (interleaveBits (AxestoTranspose [5, 10, 20] 5 3) 5 3).testBit (14 - k)) =
      [false, false, true, true, true, true, false, true, false,
        true, true, true, false, false, true] := by
  exact ⟨by decide, by decide⟩

/-- Claim C5, counterexample: at `n = 1`, `b = 2`, `interleaveBits` does not
return the coordinate `2` unchanged — the stride-3 spread sends bit 1 to
bit 3, giving 8. -/
theorem claim_C5_counterexample : interleaveBits [2] 2 1 ≠ 2 := by
  decide

/-- Claim C5 as amended: for `n = 1` the identities only hold at `b = 1`
(for `b ≥ 2` the spread moves bit `k` to bit `3k`): with `b = 1`,
`interleaveBits` returns the 1-bit coordinate unchanged and
`uninterleaveBits` fills the one-slot vector with the 1-bit code. -/
theorem claim_C5_identity_b1 (x c : Nat) (X0 : List Nat) (hx : x < 2) (hc : c < 2)
    (hlen : X0.length = 1) :
    interleaveBits [x] 1 1 = x ∧ uninterleaveBits X0 1 1 c = [c] := by
  obtain ⟨a, rfl⟩ := List.length_eq_one.mp hlen
  constructor
  · interval_cases x <;> rfl
  · have h : uninterleaveBits [a] 1 1 c = uninterleaveBits [0] 1 1 c :=
      uninterleaveBits_init_irrel (Nat.le_refl 1) rfl rfl
    rw [h]
    interval_cases c <;> decide

/-- Witness for the amended C5 at `x = 1`, `c = 1`, initial vector `[7]`. -/
theorem claim_C5_witness :
    interleaveBits [1] 1 1 = 1 ∧ uninterleaveBits [7] 1 1 1 = [1] :=
  claim_C5_identity_b1 1 1 [7] (by decide) (by decide) rfl

/-- Claim C6: for `n = 1` and every `b ≥ 1`, both transforms map every
one-element vector with entry in `[0, 2^b - 1]` to itself. -/
theorem claim_C6_n1_identity (b x : Nat) (hb : 1 ≤ b) (hx : x < 2 ^ b) :
    AxestoTranspose [x] b 1 = [x] ∧ TransposetoAxes [x] b 1 = [x] :=
  ⟨axesToTranspose_n1 hx, transposeToAxes_n1 hx⟩

/-- Witness for C6 at `b = 5`, `x = 21`. -/
theorem claim_C6_witness :
    AxestoTranspose [21] 5 1 = [21] ∧ TransposetoAxes [21] 5 1 = [21] :=
  claim_C6_n1_identity 5 21 (by decide) (by decide)

/-- Claim C7: for `b = 1` no invert/exchange bit-plane iteration executes:
`AxestoTranspose` reduces to the ascending Gray chain (with zero final
correction) and `TransposetoAxes` to the Gray decode alone, on any vector
with entries in `[0, 1]`. -/
theorem claim_C7_b1_reduces (n : Nat) (X : List Nat) (hn : 1 ≤ n)
    (hX : ∀ x ∈ X, x ≤ 1) :
    AxestoTranspose X 1 n =
        (List.range' 1 (n - 1)).foldl (fun Y i => xorStep i Y) X ∧
    TransposetoAxes X 1 n = grayDecode n X :=
  ⟨axesToTranspose_b1 n X, transposeToAxes_b1 n X⟩

/-- Witness for C7 at `n = 3`, `v = (1, 0, 1)`. -/
theorem claim_C7_witness :
    AxestoTranspose [1, 0, 1] 1 3 =
        (List.range' 1 (3 - 1)).foldl (fun Y i => xorStep i Y) [1, 0, 1] ∧
    TransposetoAxes [1, 0, 1] 1 3 = grayDecode 3 [1, 0, 1] :=
  claim_C7_b1_reduces 3 [1, 0, 1] (by decide) (by decide)

/-- Claim C8: for every `n ≥ 1`, `b ≥ 1` and vector of length `n` with all
entries in `[0, 2^b - 1]`, both transforms keep every entry in
`[0, 2^b - 1]` (no bit at position `b` or above is ever set). -/
theorem claim_C8_bounds (n b : Nat) (X : List Nat) (hn : 1 ≤ n) (hb : 1 ≤ b)
    (hlen : X.length = n) (hX : ∀ x ∈ X, x < 2 ^ b) :
    (∀ y ∈ AxestoTranspose X b n, y < 2 ^ b) ∧
    (∀ y ∈ TransposetoAxes X b n, y < 2 ^ b) :=
  ⟨axesToTranspose_bounds hX, transposeToAxes_bounds hX⟩

/-- Witness for C8 at `b = 5`, `n = 3`, `v = (5, 10, 20)`. -/
theorem claim_C8_witness :
    (∀ y ∈ AxestoTranspose [5, 10, 20] 5 3, y < 2 ^ 5) ∧
    (∀ y ∈ TransposetoAxes [5, 10, 20] 5 3, y < 2 ^ 5) :=
  claim_C8_bounds 3 5 [5, 10, 20] (by decide) (by decide) rfl (by decide)

/-- Claim C9: `interleaveBits` leaves the coordinate array unchanged — in
the state-threaded embedding, the array component of the result equals the
input for every `X`, `b`, `n`. -/
theorem claim_C9_interleave_frame (X : List Nat) (b n : Nat) :
    (interleaveBitsS X b n).1 = X :=
  interleaveBitsS_fst X b n

/-- Claim C10: the result of `uninterleaveBits` does not depend on the prior
contents of the output vector (every slot is zeroed before being filled). -/
theorem claim_C10_uninterleave_init_independent (b n code : Nat)
    (Y1 Y2 : List Nat) (hb : 1 ≤ b) (hn : 1 ≤ n)
    (h1 : Y1.length = n) (h2 : Y2.length = n) :
    uninterleaveBits Y1 b n code = uninterleaveBits Y2 b n code :=
  uninterleaveBits_init_irrel hn h1 h2

/-- Witness for C10 at `b = 5`, `n = 3`, `code = 7865`, two different
initial vectors. -/
theorem claim_C10_witness :
    uninterleaveBits [9, 9, 9] 5 3 7865 = uninterleaveBits [0, 1, 2] 5 3 7865 :=
  claim_C10_uninterleave_init_independent 5 3 7865 [9, 9, 9] [0, 1, 2]
    (by decide) (by decide) rfl rfl

end HilbertND
